import Mathlib

/-!
Shallow embedding of the `Layer` component of the Rust_ML-Library repository
(`src/layer.rs`, `src/dense_params.rs`) and proofs about its dense and
convolutional forward/backward passes.

Modelling conventions:
* `f64` is embedded as `ℚ`; every arithmetic identity claimed by the spec is
  an exact identity of the written formulas, which `ℚ` reflects faithfully
  (the embedding does not model rounding).
* A Rust indexing operation `v[i]` that can panic is embedded as the fallible
  lookup `v[i]?` in the `Option` monad; a function returns `none` exactly when
  the original code panics.
* `thread_rng` draws are embedded as oracle arguments (`rw`, `rb`) supplied by
  the caller, making initialization a pure function of those draws.
* The external collaborators (`Activation`, `ConvParams::new`,
  `ConvParams::add_padding`, `ConvParams::get_output_dims`) are not under
  `src/`; they are modelled from the spec, and each such definition is marked
  `Modelled from the spec:` in its doc comment.
-/

/-- Loop combinator: run a fallible body over a list of indices, collecting the
results; `none` as soon as the body fails (a Rust `for` loop whose body writes
`out[i] = f(i)` and can panic). -/
def optMap (f : α → Option β) : List α → Option (List β)
  | [] => some []
  | a :: l => do
    let b ← f a
    let bs ← optMap f l
    pure (b :: bs)

/-- Loop combinator: fallible left fold (a Rust `for` loop threading an
accumulator whose body can panic). -/
def optFoldl (f : α → β → Option α) : α → List β → Option α
  | a, [] => some a
  | a, b :: l => do
    let a' ← f a b
    optFoldl f a' l

/-- Grids stand for the `Vec<Vec<f64>>` values of the source. -/
abbrev Grid := List (List ℚ)

/-- Fallible 2-D lookup `g[i][j]` (both indexings can panic in Rust). -/
def getCell (g : Grid) (i j : Nat) : Option ℚ := do
  let row ← g[i]?
  row[j]?

/-- 2-D in-place write `g[i][j] = v`; every use site in this file first reads
the cell through `getCell`, so the out-of-bounds no-op of `List.set` is never
reached where Rust would panic. -/
def setCell (g : Grid) (i j : Nat) (v : ℚ) : Grid :=
  g.set i ((g.getD i []).set j v)

/-- Modelled from the spec: the external activation provider (`activation.rs`
is not under `src/`). It supplies a pure `function(x) -> y` and a
`derivative(activated_output) -> slope`. -/
structure Activation where
  function : ℚ → ℚ
  derivative : ℚ → ℚ

/-- The `LayerType` enum of `layer.rs`. -/
inductive LayerType where
  | Dense
  | Convolutional
deriving DecidableEq, Repr

/-- The `PaddingType` enum (declared in `convolution_params.rs`, used by
`layer.rs`); the spec fixes its two variants, Valid and Same. -/
inductive PaddingType where
  | Valid
  | Same
deriving DecidableEq, Repr

/-- The `DenseParams` struct of `dense_params.rs`. -/
structure DenseParams where
  nodes_in : Nat
  nodes_out : Nat
  outputs : List ℚ
  inputs : List ℚ
  weights : Grid
  biases : List ℚ
deriving DecidableEq

/-- The `ConvParams` struct (fields as inferred by the spec from usage in
`layer.rs`: square kernel side, stride, padding mode, kernel weights, scalar
bias, and the three caches). -/
structure ConvParams where
  kernel : Nat
  padding_type : PaddingType
  stride : Nat
  weights : Grid
  bias : ℚ
  inputs : Grid
  data : Grid
  outputs : Grid
deriving DecidableEq

/-- The `Layer` struct of `layer.rs`. -/
structure Layer where
  activation : Activation
  layer_type : LayerType
  conv_params : Option ConvParams
  dense_params : Option DenseParams

/-- `DenseParams::init`: overwrite every weight and bias with a fresh draw;
the `thread_rng().gen_range(-1.0..1.0)` draws are the oracles `rw`/`rb`. -/
def DenseParams.init (rw : Nat → Nat → ℚ) (rb : Nat → ℚ) (p : DenseParams) : DenseParams :=
  { p with
    weights := p.weights.mapIdx (fun i row => row.mapIdx (fun j _ => rw i j)),
    biases := p.biases.mapIdx (fun i _ => rb i) }

/-- `DenseParams::new`: zero-filled `nodes_in × nodes_out` weights and
`nodes_out` biases, empty caches, then `init`. -/
def DenseParams.new (nodes_in nodes_out : Nat) (rw : Nat → Nat → ℚ) (rb : Nat → ℚ) :
    DenseParams :=
  DenseParams.init rw rb
    { nodes_in := nodes_in
      nodes_out := nodes_out
      outputs := []
      inputs := []
      weights := List.replicate nodes_in (List.replicate nodes_out (0 : ℚ))
      biases := List.replicate nodes_out (0 : ℚ) }

/-- Modelled from the spec: `ConvParams::new` (`convolution_params.rs` is not
under `src/`) constructs a `kernel × kernel` weight matrix and a scalar bias
from the external initializer's draws, with empty caches. -/
def ConvParams.new (kernel : Nat) (padding_type : PaddingType) (stride : Nat)
    (rw : Nat → Nat → ℚ) (rb : ℚ) : ConvParams :=
  { kernel := kernel
    padding_type := padding_type
    stride := stride
    weights := (List.range kernel).map (fun i => (List.range kernel).map (fun j => rw i j))
    bias := rb
    inputs := []
    data := []
    outputs := [] }

/-- `Layer::dense(nodes, activation_fn)` with `nodes = [nodes_0, nodes_1]`. -/
def Layer.dense (nodes_0 nodes_1 : Nat) (act : Activation)
    (rw : Nat → Nat → ℚ) (rb : Nat → ℚ) : Layer :=
  { dense_params := some (DenseParams.new nodes_0 nodes_1 rw rb)
    activation := act
    layer_type := LayerType.Dense
    conv_params := none }

/-- `Layer::conv(kernel, padding_type, stride, activation_fn)`. -/
def Layer.conv (kernel : Nat) (padding_type : PaddingType) (stride : Nat)
    (act : Activation) (rw : Nat → Nat → ℚ) (rb : ℚ) : Layer :=
  { dense_params := none
    activation := act
    layer_type := LayerType.Convolutional
    conv_params := some (ConvParams.new kernel padding_type stride rw rb) }

/-- `Layer::dense_forward`: cache the input, accumulate
`weighted[i] = biases[i] + Σ_j inputs[j] * weights[j][i]` (the accumulator
starts from `biases.clone()` and the loop reads `inputs[j]` and
`weights[j][i]`, each a panicking index), apply the activation element-wise,
cache and return the result. `none` exactly when the Rust code panics. -/
def Layer.dense_forward (l : Layer) (inputs : List ℚ) : Option (Layer × List ℚ) := do
  let p0 ← l.dense_params
  let p := { p0 with inputs := inputs }
  let weighted ← optMap (fun i => do
      let bi ← p.biases[i]?
      optFoldl (fun acc j => do
          let xj ← inputs[j]?
          let row ← p.weights[j]?
          let wji ← row[i]?
          pure (acc + xj * wji)) bi (List.range p.nodes_in))
    (List.range p.nodes_out)
  let outs := weighted.map l.activation.function
  pure ({ l with dense_params := some { p with outputs := outs } }, outs)

/-- `Layer::dense_backward`: `delta[i] = errors[i] * derivative(outputs[i])`;
weights updated in place to `weights[i][j] - lr * inputs[i] * delta[j]`;
biases to `biases[i] - lr * delta[i]`; then `next_delta` (a zero vector of
length `nodes_in`) accumulates `next_delta[i] += weights[i][j] * delta[j] *
inputs[i]` over the already-updated weights. `none` exactly when the Rust
code panics. -/
def Layer.dense_backward (l : Layer) (errors : List ℚ) (learning_rate : ℚ) :
    Option (Layer × List ℚ) := do
  let p ← l.dense_params
  let delta ← optMap (fun i => do
      let ei ← errors[i]?
      let oi ← p.outputs[i]?
      pure (ei * l.activation.derivative oi)) (List.range errors.length)
  let weights' ← optMap (fun i => do
      let row ← p.weights[i]?
      let xi ← p.inputs[i]?
      optMap (fun j => do
          let wij ← row[j]?
          let dj ← delta[j]?
          pure (wij - learning_rate * (xi * dj))) (List.range row.length))
    (List.range p.weights.length)
  let biases' ← optMap (fun i => do
      let bi ← p.biases[i]?
      let di ← delta[i]?
      pure (bi - learning_rate * di)) (List.range p.biases.length)
  let nd ← optFoldl (fun nd i => do
      let row ← weights'[i]?
      optFoldl (fun nd j => do
          let cur ← nd[i]?
          let wij ← row[j]?
          let dj ← delta[j]?
          let xi ← p.inputs[i]?
          pure (nd.set i (cur + wij * dj * xi))) nd (List.range row.length))
    (List.replicate p.nodes_in (0 : ℚ)) (List.range weights'.length)
  pure ({ l with dense_params := some { p with weights := weights', biases := biases' } }, nd)

/-- Modelled from the spec: `ConvParams::get_output_dims`
(`convolution_params.rs` is not under `src/`) returns `[width, height]` of the
valid-convolution output grid: the number of valid kernel placements over
`data` in each dimension at the configured stride. -/
def ConvParams.get_output_dims (p : ConvParams) : List Nat :=
  let h := p.data.length
  let w := (p.data.headD []).length
  [if w < p.kernel then 0 else (w - p.kernel) / p.stride + 1,
   if h < p.kernel then 0 else (h - p.kernel) / p.stride + 1]

/-- Modelled from the spec: `ConvParams::add_padding`
(`convolution_params.rs` is not under `src/`) produces the padded working
buffer from the cached raw input according to `padding_type`: for Valid the
working buffer equals the raw input (already copied there by `conv_forward`,
so nothing changes); for Same an externally-chosen padder — taken here as the
parameter `padFn` — is applied to the cached input. -/
def ConvParams.add_padding (padFn : Grid → Grid) (p : ConvParams) : ConvParams :=
  match p.padding_type with
  | PaddingType.Valid => p
  | PaddingType.Same => { p with data := padFn p.inputs }

/-- Innermost pair of kernel loops of `conv_forward` for output cell `(j, k)`:
starting from the current cell value, for every kernel offset `(r, c)` add
`img[j*stride+r][k*stride+c] * weights[r][c]` and then add the bias (the bias
is accumulated once per kernel element). -/
def convCell (kern stride : Nat) (w img : Grid) (b : ℚ) (j k : Nat) (init : ℚ) : Option ℚ :=
  optFoldl (fun acc r =>
      optFoldl (fun acc2 c => do
          let iv ← getCell img (j * stride + r) (k * stride + c)
          let wv ← getCell w r c
          pure (acc2 + iv * wv + b)) acc (List.range kern))
    init (List.range kern)

/-- Column loop of `conv_forward` for row `j`: for each column index `k`,
first re-evaluate the guard `k + kernel > data[0].len()` (reading `data[0]`,
a panicking index) and break out of the loop when it holds; otherwise
accumulate into `weighted[j][k]` via `convCell`. -/
def convColsGo (kern stride : Nat) (w img : Grid) (b : ℚ) (j : Nat) :
    List Nat → Grid → Option Grid
  | [], wi => some wi
  | k :: ks, wi => do
    let row0 ← img[0]?
    if k + kern > row0.length then
      pure wi
    else do
      let cur ← getCell wi j k
      let v ← convCell kern stride w img b j k cur
      convColsGo kern stride w img b j ks (setCell wi j k v)

/-- Row loop of `conv_forward`: for each row index `j`, break when
`j + kernel > data.len()`, otherwise run the column loop over
`0..weighted[j].len()` (reading `weighted[j]`, a panicking index). -/
def convRowsGo (kern stride : Nat) (w img : Grid) (b : ℚ) :
    List Nat → Grid → Option Grid
  | [], wi => some wi
  | j :: js, wi =>
    if j + kern > img.length then
      some wi
    else do
      let rowj ← wi[j]?
      let wi' ← convColsGo kern stride w img b j (List.range rowj.length) wi
      convRowsGo kern stride w img b js wi'

/-- `Layer::conv_forward`: cache the raw input; for Valid padding copy it into
the working buffer; call the collaborator's `add_padding`; allocate the
weighted grid from `get_output_dims` (all zeros, so cells skipped by a loop
break stay zero); run the sliding-kernel accumulation; apply the activation
element-wise over the whole weighted grid; cache and return it. -/
def Layer.conv_forward (padFn : Grid → Grid) (l : Layer) (inputs : Grid) :
    Option (Layer × Grid) := do
  let p0 ← l.conv_params
  let p1 := { p0 with inputs := inputs }
  let p2 := if p1.padding_type = PaddingType.Valid then { p1 with data := p1.inputs } else p1
  let p := ConvParams.add_padding padFn p2
  let dims := p.get_output_dims
  let wi0 : Grid := List.replicate (dims.getD 1 0) (List.replicate (dims.getD 0 0) (0 : ℚ))
  let weighted ← convRowsGo p.kernel p.stride p.weights p.data p.bias
    (List.range wi0.length) wi0
  let outs := weighted.map (fun row => row.map l.activation.function)
  pure ({ l with conv_params := some { p with outputs := outs } }, outs)

/-- `Layer::add_padding_matrix`: read the input's height and width (`matrix[0]`
is a panicking index on an empty matrix), allocate a zero grid enlarged by
`padding` on every side, and copy `matrix[i][j]` into cell
`(i + padding, j + padding)`. -/
def Layer.add_padding_matrix (padding : Nat) (matrix : Grid) : Option Grid := do
  let height := matrix.length
  let row0 ← matrix[0]?
  let width := row0.length
  optFoldl (fun g i => do
      let row ← matrix[i]?
      optFoldl (fun g2 j => do
          let v ← row[j]?
          pure (setCell g2 (i + padding) (j + padding) v)) g (List.range width))
    (List.replicate (height + 2 * padding) (List.replicate (width + 2 * padding) (0 : ℚ)))
    (List.range height)

/-- Column loop of the weight-gradient pass of `conv_backward` for row `j`:
guard `k + kernel > data[0].len()` (reading `data[0]`) breaks the loop;
otherwise every kernel offset `(r, c)` accumulates
`data[j*stride+r][k*stride+c] * delta[j][k]` into `weight_gradients[r][c]`. -/
def wgColsGo (kern stride : Nat) (img delta : Grid) (j : Nat) :
    List Nat → Grid → Option Grid
  | [], wg => some wg
  | k :: ks, wg => do
    let row0 ← img[0]?
    if k + kern > row0.length then
      pure wg
    else do
      let wg' ← optFoldl (fun g r =>
          optFoldl (fun g2 c => do
              let cur ← getCell g2 r c
              let iv ← getCell img (j * stride + r) (k * stride + c)
              let dv ← getCell delta j k
              pure (setCell g2 r c (cur + iv * dv))) g (List.range kern))
        wg (List.range kern)
      wgColsGo kern stride img delta j ks wg'

/-- Row loop of the weight-gradient pass of `conv_backward`: breaks when
`j + kernel > data.len()`, otherwise runs the column loop over
`0..delta[j].len()`. -/
def wgRowsGo (kern stride : Nat) (img delta : Grid) :
    List Nat → Grid → Option Grid
  | [], wg => some wg
  | j :: js, wg =>
    if j + kern > img.length then
      some wg
    else do
      let rowj ← delta[j]?
      let wg' ← wgColsGo kern stride img delta j (List.range rowj.length) wg
      wgRowsGo kern stride img delta js wg'

/-- Innermost kernel loops of the upstream-gradient pass of `conv_backward`
for output cell `(j, k)`: sum `weights[r][c] * padded[j*stride+r][k*stride+c]`
over all kernel offsets (no 180° rotation of the kernel). -/
def ndCell (kern stride : Nat) (w pg : Grid) (j k : Nat) : Option ℚ :=
  optFoldl (fun acc r =>
      optFoldl (fun acc2 c => do
          let wv ← getCell w r c
          let pv ← getCell pg (j * stride + r) (k * stride + c)
          pure (acc2 + wv * pv)) acc (List.range kern))
    (0 : ℚ) (List.range kern)

/-- Column loop of the upstream-gradient pass for row `j`: the guard
`k + kernel > padded[0].len()` (reading `padded[0]`) breaks the loop;
otherwise the cell sum is pushed onto the row being built. -/
def ndColsGo (kern stride : Nat) (w pg : Grid) (j : Nat) :
    List Nat → List ℚ → Option (List ℚ)
  | [], row => some row
  | k :: ks, row => do
    let row0 ← pg[0]?
    if k + kern > row0.length then
      pure row
    else do
      let v ← ndCell kern stride w pg j k
      ndColsGo kern stride w pg j ks (row ++ [v])

/-- Row loop of the upstream-gradient pass: breaks when
`j + kernel > padded.len()`, otherwise builds the row over
`0..padded[j].len()` and pushes it onto `next_delta`. -/
def ndRowsGo (kern stride : Nat) (w pg : Grid) :
    List Nat → Grid → Option Grid
  | [], acc => some acc
  | j :: js, acc =>
    if j + kern > pg.length then
      some acc
    else do
      let rowj ← pg[j]?
      let row ← ndColsGo kern stride w pg j (List.range rowj.length) []
      ndRowsGo kern stride w pg js (acc ++ [row])

/-- `Layer::conv_backward`:
1. `delta[i][j] = errors[i][j] * derivative(outputs[i][j])`;
2. accumulate `weight_gradients` from the padded input (the result is never
   read afterwards, but its index panics are real, so the pass is executed);
3. update every weight cell by subtracting `lr * delta[k][l]` for every delta
   cell, i.e. every weight cell drops by the same aggregate `lr * Σ delta`;
4. update the bias by `lr * mean(delta)` (reading `delta[0]`, a panicking
   index; the `f64` division yielding NaN on an empty row maps to the
   total `ℚ` division, a case no theorem below touches);
5. zero-pad `delta` by `kernel - 1` and slide the already-updated, un-rotated
   kernel over it to build `next_delta`.
`none` exactly when the Rust code panics. -/
def Layer.conv_backward (l : Layer) (errors : Grid) (learning_rate : ℚ) :
    Option (Layer × Grid) := do
  let p ← l.conv_params
  let delta ← optMap (fun i => do
      let erow ← errors[i]?
      optMap (fun j => do
          let e ← erow[j]?
          let o ← getCell p.outputs i j
          pure (e * l.activation.derivative o)) (List.range erow.length))
    (List.range errors.length)
  let wg0 : Grid := List.replicate p.kernel (List.replicate p.kernel (0 : ℚ))
  let _wg ← wgRowsGo p.kernel p.stride p.data delta (List.range delta.length) wg0
  let weights' := p.weights.map (fun row => row.map (fun wv =>
      delta.foldl (fun a drow => drow.foldl (fun a2 d => a2 - learning_rate * d) a) wv))
  let s := delta.foldl (fun a drow => drow.foldl (fun a2 d => a2 + d) a) (0 : ℚ)
  let drow0 ← delta[0]?
  let avg := s / (((delta.length * drow0.length : Nat) : ℚ))
  let bias' := p.bias - learning_rate * avg
  let pg ← Layer.add_padding_matrix (p.kernel - 1) delta
  let nd ← ndRowsGo p.kernel p.stride weights' pg (List.range pg.length) []
  pure ({ l with conv_params := some { p with weights := weights', bias := bias' } }, nd)

/-- `Layer::get_weights`. -/
def Layer.get_weights (l : Layer) : Option Grid :=
  l.dense_params.map (fun p => p.weights)

/-- `Layer::get_biases`. -/
def Layer.get_biases (l : Layer) : Option (List ℚ) :=
  l.dense_params.map (fun p => p.biases)

/-- `Layer::get_nodes`. -/
def Layer.get_nodes (l : Layer) : Option Nat :=
  l.dense_params.map (fun p => p.nodes_out)

/-- `Layer::get_input_nodes`. -/
def Layer.get_input_nodes (l : Layer) : Option Nat :=
  l.dense_params.map (fun p => p.nodes_in)

/-- `Layer::get_outputs`. -/
def Layer.get_outputs (l : Layer) : Option (List ℚ) :=
  l.dense_params.map (fun p => p.outputs)

/-- `Layer::get_layer_type`. -/
def Layer.get_layer_type (l : Layer) : LayerType :=
  l.layer_type

/-- `Layer::reset`: clear the dense input/output caches (panics — `none` —
when the dense container is absent). -/
def Layer.reset (l : Layer) : Option Layer := do
  let p ← l.dense_params
  pure { l with dense_params := some { p with inputs := [], outputs := [] } }

/-- `Layer::set_params`: overwrite the dense weights and biases. -/
def Layer.set_params (l : Layer) (weights : Grid) (biases : List ℚ) : Option Layer := do
  let p ← l.dense_params
  pure { l with dense_params := some { p with weights := weights, biases := biases } }

/-! ### Generic lemmas about the loop combinators and list indexing -/

/-- Default-value lookup agrees with the fallible lookup below the length. -/
theorem getElem?_eq_some_getD {α} {l : List α} {i : Nat} (d : α) (h : i < l.length) :
    l[i]? = some (l.getD i d) := by
  rw [List.getD_eq_getElem?_getD, List.getElem?_eq_getElem h]
  rfl

/-- When every loop body succeeds, `optMap` is a plain `map`. -/
theorem optMap_eq_map {α β} {f : α → Option β} {g : α → β} : ∀ {L : List α},
    (∀ b ∈ L, f b = some (g b)) → optMap f L = some (L.map g) := by
  intro L
  induction L with
  | nil => intro _; rfl
  | cons a L ih =>
    intro h
    simp only [optMap, h a (by simp), ih (fun b hb => h b (by simp [hb])), List.map_cons,
      Option.bind_eq_bind, Option.some_bind]
    rfl

/-- When every loop body succeeds from every invariant-satisfying accumulator,
`optFoldl` is the plain `foldl` of the success values and the invariant is
carried to the result. -/
theorem optFoldl_eq_foldl {α β} (Inv : α → Prop) {f : α → β → Option α} {g : α → β → α} :
    ∀ {L : List β} {a : α}, Inv a →
      (∀ a' b, b ∈ L → Inv a' → f a' b = some (g a' b) ∧ Inv (g a' b)) →
      optFoldl f a L = some (L.foldl g a) ∧ Inv (L.foldl g a) := by
  intro L
  induction L with
  | nil => intro a ha _; exact ⟨rfl, ha⟩
  | cons b L ih =>
    intro a ha h
    obtain ⟨h1, h2⟩ := h a b (by simp) ha
    have step := ih h2 (fun a' c hc ha' => h a' c (by simp [hc]) ha')
    refine ⟨?_, step.2⟩
    simp only [optFoldl, h1, Option.bind_eq_bind, Option.some_bind, step.1, List.foldl_cons]

/-- Invariant-free special case of `optFoldl_eq_foldl`. -/
theorem optFoldl_eq_foldl' {α β} {f : α → β → Option α} {g : α → β → α}
    {L : List β} {a : α} (h : ∀ a' b, b ∈ L → f a' b = some (g a' b)) :
    optFoldl f a L = some (L.foldl g a) :=
  (optFoldl_eq_foldl (fun _ => True) trivial
    (fun a' b hb _ => ⟨h a' b hb, trivial⟩)).1

/-- An accumulating loop that only ever adds terms computes the sum. -/
theorem foldl_add_map {β} (t : β → ℚ) : ∀ (L : List β) (init : ℚ),
    L.foldl (fun a b => a + t b) init = init + (L.map t).sum := by
  intro L
  induction L with
  | nil => intro init; simp
  | cons b L ih =>
    intro init
    simp only [List.foldl_cons, ih, List.map_cons, List.sum_cons]
    ring

/-- An accumulating loop that only ever subtracts scaled terms. -/
theorem foldl_sub_scaled (c : ℚ) : ∀ (L : List ℚ) (init : ℚ),
    L.foldl (fun a b => a - c * b) init = init - c * L.sum := by
  intro L
  induction L with
  | nil => intro init; simp
  | cons b L ih =>
    intro init
    simp only [List.foldl_cons, ih, List.sum_cons]
    ring

/-- An accumulating loop that only ever adds elements. -/
theorem foldl_add_self : ∀ (L : List ℚ) (init : ℚ),
    L.foldl (fun a b => a + b) init = init + L.sum := by
  intro L
  induction L with
  | nil => intro init; simp
  | cons b L ih =>
    intro init
    simp only [List.foldl_cons, ih, List.sum_cons]
    ring

/-- Sum of a constant added to every mapped term. -/
theorem sum_map_add_const {β} (t : β → ℚ) (c : ℚ) : ∀ (L : List β),
    (L.map (fun b => t b + c)).sum = (L.map t).sum + L.length * c := by
  intro L
  induction L with
  | nil => simp
  | cons b L ih =>
    simp only [List.map_cons, List.sum_cons, ih, List.length_cons]
    push_cast
    ring

/-- Overwriting an entry with the value already there is the identity. -/
theorem set_getD_self {α} {l : List α} {i : Nat} {d : α} (h : i < l.length) :
    l.set i (l.getD i d) = l := by
  apply List.ext_getElem (by simp)
  intro k hk hk'
  rcases eq_or_ne i k with rfl | hne
  · rw [List.getElem_set_self]
    rw [List.getD_eq_getElem?_getD, List.getElem?_eq_getElem h]
    rfl
  · rw [List.getElem_set_ne hne]

/-! ### Characterization of the dense pass -/

/-- Shared characterization of `Layer::dense_forward` on a well-formed dense
layer fed at least `nodes_in` inputs: the call succeeds, caches the raw input,
and both caches and returns the activated weighted sums. -/
theorem dense_forward_eq {l : Layer} {p : DenseParams} {xs : List ℚ}
    (hp : l.dense_params = some p)
    (hW : p.weights.length = p.nodes_in)
    (hrow : ∀ row ∈ p.weights, row.length = p.nodes_out)
    (hb : p.biases.length = p.nodes_out)
    (hx : p.nodes_in ≤ xs.length) :
    l.dense_forward xs = some
      ({ l with
          dense_params := some { p with
            inputs := xs,
            outputs := (List.range p.nodes_out).map (fun i =>
              l.activation.function (p.biases.getD i 0 +
                ((List.range p.nodes_in).map
                  (fun j => xs.getD j 0 * (p.weights.getD j []).getD i 0)).sum)) } },
       (List.range p.nodes_out).map (fun i =>
          l.activation.function (p.biases.getD i 0 +
            ((List.range p.nodes_in).map
              (fun j => xs.getD j 0 * (p.weights.getD j []).getD i 0)).sum))) := by
  unfold Layer.dense_forward
  rw [hp]
  have hmap : optMap (fun i => do
      let bi ← p.biases[i]?
      optFoldl (fun acc j => do
          let xj ← xs[j]?
          let row ← p.weights[j]?
          let wji ← row[i]?
          pure (acc + xj * wji)) bi (List.range p.nodes_in))
      (List.range p.nodes_out) = some ((List.range p.nodes_out).map (fun i =>
        p.biases.getD i 0 +
          ((List.range p.nodes_in).map
            (fun j => xs.getD j 0 * (p.weights.getD j []).getD i 0)).sum)) := by
    apply optMap_eq_map
    intro i hi
    rw [List.mem_range] at hi
    have hbi : p.biases[i]? = some (p.biases.getD i 0) :=
      getElem?_eq_some_getD 0 (by omega)
    have hfold : optFoldl (fun acc j => do
        let xj ← xs[j]?
        let row ← p.weights[j]?
        let wji ← row[i]?
        pure (acc + xj * wji)) (p.biases.getD i 0) (List.range p.nodes_in) =
        some ((List.range p.nodes_in).foldl
          (fun acc j => acc + xs.getD j 0 * (p.weights.getD j []).getD i 0)
          (p.biases.getD i 0)) := by
      apply optFoldl_eq_foldl'
      intro acc j hj
      rw [List.mem_range] at hj
      have hxj : xs[j]? = some (xs.getD j 0) := getElem?_eq_some_getD 0 (by omega)
      have hrj : p.weights[j]? = some (p.weights.getD j []) :=
        getElem?_eq_some_getD [] (by omega)
      have hmem : p.weights.getD j [] ∈ p.weights := by
        rw [List.getD_eq_getElem?_getD, List.getElem?_eq_getElem (by omega : j < p.weights.length)]
        exact List.getElem_mem _
      have hwji : (p.weights.getD j [])[i]? = some ((p.weights.getD j []).getD i 0) :=
        getElem?_eq_some_getD 0 (by rw [hrow _ hmem]; omega)
      simp only [hxj, hrj, hwji, Option.bind_eq_bind, Option.some_bind]
      rfl
    simp only [Option.bind_eq_bind] at hfold
    simp only [hbi, Option.bind_eq_bind, Option.some_bind]
    rw [hfold, foldl_add_map (fun j => xs.getD j 0 * (p.weights.getD j []).getD i 0)]
  simp only [Option.bind_eq_bind] at hmap
  simp only [Option.bind_eq_bind, Option.some_bind]
  rw [hmap]
  simp only [Option.some_bind, List.map_map]
  rfl

/-- `optFoldl` over an appended index list runs the two parts in sequence. -/
theorem optFoldl_append {α β} {f : α → β → Option α} :
    ∀ (L1 : List β) (L2 : List β) (a : α),
      optFoldl f a (L1 ++ L2) = (optFoldl f a L1).bind (fun a' => optFoldl f a' L2) := by
  intro L1
  induction L1 with
  | nil => intro L2 a; rfl
  | cons b L1 ih =>
    intro L2 a
    simp only [List.cons_append, optFoldl, Option.bind_eq_bind]
    cases f a b with
    | none => rfl
    | some a' =>
      simp only [Option.some_bind]
      exact ih L2 a'

/-- Shared failure characterization of `Layer::dense_forward`: with at least
one output node, an input shorter than `nodes_in` makes the very first
weighted-sum loop index past the input vector, so the call panics. -/
theorem dense_forward_none {l : Layer} {p : DenseParams} {xs : List ℚ}
    (hp : l.dense_params = some p)
    (hW : p.weights.length = p.nodes_in)
    (hrow : ∀ row ∈ p.weights, row.length = p.nodes_out)
    (hb : p.biases.length = p.nodes_out)
    (hout : 0 < p.nodes_out)
    (hx : xs.length < p.nodes_in) :
    l.dense_forward xs = none := by
  unfold Layer.dense_forward
  rw [hp]
  obtain ⟨m, hm⟩ : ∃ m, p.nodes_out = m + 1 := ⟨p.nodes_out - 1, by omega⟩
  have hfail : (do
      let bi ← p.biases[(0 : Nat)]?
      optFoldl (fun acc j => do
          let xj ← xs[j]?
          let row ← p.weights[j]?
          let wji ← row[(0 : Nat)]?
          pure (acc + xj * wji)) bi (List.range p.nodes_in)) = (none : Option ℚ) := by
    have hbi : p.biases[(0 : Nat)]? = some (p.biases.getD 0 0) :=
      getElem?_eq_some_getD 0 (by omega)
    obtain ⟨d, hd⟩ : ∃ d, p.nodes_in = xs.length + (d + 1) := ⟨p.nodes_in - xs.length - 1, by omega⟩
    have hsplit : List.range p.nodes_in =
        List.range xs.length ++ (List.range (d + 1)).map (xs.length + ·) := by
      rw [hd, List.range_add]
    have hok : optFoldl (fun acc j => do
        let xj ← xs[j]?
        let row ← p.weights[j]?
        let wji ← row[(0 : Nat)]?
        pure (acc + xj * wji)) (p.biases.getD 0 0) (List.range xs.length) =
        some ((List.range xs.length).foldl
          (fun acc j => acc + xs.getD j 0 * (p.weights.getD j []).getD 0 0)
          (p.biases.getD 0 0)) := by
      apply optFoldl_eq_foldl'
      intro acc j hj
      rw [List.mem_range] at hj
      have hxj : xs[j]? = some (xs.getD j 0) := getElem?_eq_some_getD 0 (by omega)
      have hrj : p.weights[j]? = some (p.weights.getD j []) :=
        getElem?_eq_some_getD [] (by omega)
      have hmem : p.weights.getD j [] ∈ p.weights := by
        rw [List.getD_eq_getElem?_getD,
          List.getElem?_eq_getElem (by omega : j < p.weights.length)]
        exact List.getElem_mem _
      have hwji : (p.weights.getD j [])[(0 : Nat)]? =
          some ((p.weights.getD j []).getD 0 0) :=
        getElem?_eq_some_getD 0 (by rw [hrow _ hmem]; omega)
      simp only [hxj, hrj, hwji, Option.bind_eq_bind, Option.some_bind]
      rfl
    have hxfail : xs[xs.length]? = none := by
      simp
    simp only [Option.bind_eq_bind] at hok
    rw [hbi]
    simp only [Option.bind_eq_bind, Option.some_bind]
    rw [hsplit, optFoldl_append, hok]
    simp only [Option.some_bind, List.range_succ_eq_map, List.map_cons, Nat.add_zero, optFoldl,
      hxfail, Option.bind_eq_bind, Option.none_bind]
  simp only [Option.bind_eq_bind] at hfail
  simp only [Option.bind_eq_bind, Option.some_bind]
  rw [hm, List.range_succ_eq_map]
  simp only [optMap, hfail, Option.bind_eq_bind, Option.none_bind]

/-- Lookup with default into a mapped range. -/
theorem getD_range_map {α} {f : Nat → α} {n j : Nat} (d : α) (h : j < n) :
    ((List.range n).map f).getD j d = f j := by
  rw [List.getD_eq_getElem?_getD, List.getElem?_map, List.getElem?_range h]
  rfl

/-- Fallible lookup into a mapped range. -/
theorem getElem?_range_map {α} {f : Nat → α} {n j : Nat} (h : j < n) :
    ((List.range n).map f)[j]? = some (f j) := by
  rw [List.getElem?_map, List.getElem?_range h]
  rfl

/-- A loop accumulating into the single vector entry `i` adds the sum of its
terms to that entry. -/
theorem foldl_set_acc (i : Nat) (t : Nat → ℚ) :
    ∀ (L : List Nat) (nd : List ℚ), i < nd.length →
      L.foldl (fun a j => a.set i (a.getD i 0 + t j)) nd =
        nd.set i (nd.getD i 0 + (L.map t).sum) := by
  intro L
  induction L with
  | nil =>
    intro nd h
    simp only [List.foldl_nil, List.map_nil, List.sum_nil, add_zero, set_getD_self h]
  | cons b L ih =>
    intro nd h
    rw [List.foldl_cons, ih _ (by rw [List.length_set]; exact h)]
    have hx : (nd.set i (nd.getD i 0 + t b)).getD i 0 = nd.getD i 0 + t b := by
      rw [List.getD_eq_getElem?_getD, List.getElem?_set_eq_of_lt _ h]
      rfl
    rw [hx, List.set_set, List.map_cons, List.sum_cons, add_assoc]

/-- A loop writing entry `i` for every `i` in an initial range, each write
adding `v i` to the current entry. -/
theorem foldl_set_add_range (v : Nat → ℚ) :
    ∀ (n : Nat) (nd : List ℚ),
      ((List.range n).foldl (fun a i => a.set i (a.getD i 0 + v i)) nd).length = nd.length ∧
      ∀ k, ((List.range n).foldl (fun a i => a.set i (a.getD i 0 + v i)) nd)[k]? =
        if k < n then (nd[k]?).map (fun x => x + v k) else nd[k]? := by
  intro n
  induction n with
  | zero =>
    intro nd
    simp
  | succ n ih =>
    intro nd
    rw [List.range_succ, List.foldl_append, List.foldl_cons, List.foldl_nil]
    obtain ⟨ih1, ih2⟩ := ih nd
    constructor
    · rw [List.length_set, ih1]
    · intro k
      rcases eq_or_ne n k with rfl | hne
      · by_cases hlt : n < nd.length
        · have hlt' : n <
              ((List.range n).foldl (fun a i => a.set i (a.getD i 0 + v i)) nd).length := by
            rw [ih1]; exact hlt
          rw [List.getElem?_set_eq_of_lt _ hlt']
          have hn : ((List.range n).foldl (fun a i => a.set i (a.getD i 0 + v i)) nd)[n]? =
              nd[n]? := by
            rw [ih2 n, if_neg (by omega)]
          have hgd : ((List.range n).foldl (fun a i => a.set i (a.getD i 0 + v i)) nd).getD n 0 =
              nd.getD n 0 := by
            rw [List.getD_eq_getElem?_getD, hn, List.getD_eq_getElem?_getD]
          rw [hgd, if_pos (by omega), List.getElem?_eq_getElem hlt,
            List.getD_eq_getElem?_getD, List.getElem?_eq_getElem hlt]
          rfl
        · have h1 : ((List.range n).foldl (fun a i => a.set i (a.getD i 0 + v i)) nd).length ≤
              n := by rw [ih1]; omega
          have h2 : nd[n]? = none := List.getElem?_eq_none (by omega)
          rw [List.getElem?_eq_none (by rw [List.length_set]; exact h1), h2]
          simp
      · rw [List.getElem?_set_ne hne, ih2 k]
        rcases Nat.lt_trichotomy k n with hk | rfl | hk
        · rw [if_pos hk, if_pos (by omega)]
        · omega
        · rw [if_neg (by omega), if_neg (by omega)]

/-- Shared characterization of `Layer::dense_backward` after a matching
forward pass (caches and matrices have the advertised dimensions): the call
succeeds, weights and biases are updated by the gradient-descent formulas
using `delta[j] = errors[j] * derivative(outputs[j])`, and `next_delta` is
computed from the already-updated weights with the extra `inputs[k]` factor. -/
theorem dense_backward_eq {l : Layer} {p : DenseParams} {errors : List ℚ} {lr : ℚ}
    (hp : l.dense_params = some p)
    (hW : p.weights.length = p.nodes_in)
    (hrow : ∀ row ∈ p.weights, row.length = p.nodes_out)
    (hb : p.biases.length = p.nodes_out)
    (hin : p.inputs.length = p.nodes_in)
    (hout : p.outputs.length = p.nodes_out)
    (he : errors.length = p.nodes_out) :
    l.dense_backward errors lr = some
      ({ l with
          dense_params := some { p with
            weights := (List.range p.nodes_in).map (fun i =>
              (List.range p.nodes_out).map (fun j =>
                (p.weights.getD i []).getD j 0 - lr * (p.inputs.getD i 0 *
                  (errors.getD j 0 * l.activation.derivative (p.outputs.getD j 0))))),
            biases := (List.range p.nodes_out).map (fun i =>
              p.biases.getD i 0 - lr *
                (errors.getD i 0 * l.activation.derivative (p.outputs.getD i 0))) } },
       (List.range p.nodes_in).map (fun k =>
         ((List.range p.nodes_out).map (fun j =>
           ((p.weights.getD k []).getD j 0 - lr * (p.inputs.getD k 0 *
             (errors.getD j 0 * l.activation.derivative (p.outputs.getD j 0)))) *
           (errors.getD j 0 * l.activation.derivative (p.outputs.getD j 0)) *
           p.inputs.getD k 0)).sum)) := by
  unfold Layer.dense_backward
  rw [hp]
  have hdelta : optMap (fun i => do
      let ei ← errors[i]?
      let oi ← p.outputs[i]?
      pure (ei * l.activation.derivative oi)) (List.range errors.length) =
      some ((List.range p.nodes_out).map (fun i =>
        errors.getD i 0 * l.activation.derivative (p.outputs.getD i 0))) := by
    rw [he]
    apply optMap_eq_map
    intro i hi
    rw [List.mem_range] at hi
    have h1 : errors[i]? = some (errors.getD i 0) := getElem?_eq_some_getD 0 (by omega)
    have h2 : p.outputs[i]? = some (p.outputs.getD i 0) := getElem?_eq_some_getD 0 (by omega)
    simp only [h1, h2, Option.bind_eq_bind, Option.some_bind]
    rfl
  have hweights : optMap (fun i => do
      let row ← p.weights[i]?
      let xi ← p.inputs[i]?
      optMap (fun j => do
          let wij ← row[j]?
          let dj ← ((List.range p.nodes_out).map (fun i2 =>
            errors.getD i2 0 * l.activation.derivative (p.outputs.getD i2 0)))[j]?
          pure (wij - lr * (xi * dj))) (List.range row.length)) (List.range p.weights.length) =
      some ((List.range p.nodes_in).map (fun i =>
        (List.range p.nodes_out).map (fun j =>
          (p.weights.getD i []).getD j 0 - lr * (p.inputs.getD i 0 *
            (errors.getD j 0 * l.activation.derivative (p.outputs.getD j 0)))))) := by
    have hmain : optMap (fun i => do
        let row ← p.weights[i]?
        let xi ← p.inputs[i]?
        optMap (fun j => do
            let wij ← row[j]?
            let dj ← ((List.range p.nodes_out).map (fun i2 =>
              errors.getD i2 0 * l.activation.derivative (p.outputs.getD i2 0)))[j]?
            pure (wij - lr * (xi * dj))) (List.range row.length)) (List.range p.weights.length) =
        some ((List.range p.weights.length).map (fun i =>
          (List.range ((p.weights.getD i []).length)).map (fun j =>
            (p.weights.getD i []).getD j 0 - lr * (p.inputs.getD i 0 *
              (errors.getD j 0 * l.activation.derivative (p.outputs.getD j 0)))))) := by
      apply optMap_eq_map
      intro i hi
      rw [List.mem_range] at hi
      have hri : p.weights[i]? = some (p.weights.getD i []) :=
        getElem?_eq_some_getD [] (by omega)
      have hxi : p.inputs[i]? = some (p.inputs.getD i 0) :=
        getElem?_eq_some_getD 0 (by omega)
      have hmem : p.weights.getD i [] ∈ p.weights := by
        rw [List.getD_eq_getElem?_getD,
          List.getElem?_eq_getElem (by omega : i < p.weights.length)]
        exact List.getElem_mem _
      have hinner : optMap (fun j => do
          let wij ← (p.weights.getD i [])[j]?
          let dj ← ((List.range p.nodes_out).map (fun i2 =>
            errors.getD i2 0 * l.activation.derivative (p.outputs.getD i2 0)))[j]?
          pure (wij - lr * (p.inputs.getD i 0 * dj)))
          (List.range ((p.weights.getD i []).length)) =
          some ((List.range ((p.weights.getD i []).length)).map (fun j =>
            (p.weights.getD i []).getD j 0 - lr * (p.inputs.getD i 0 *
              (errors.getD j 0 * l.activation.derivative (p.outputs.getD j 0))))) := by
        apply optMap_eq_map
        intro j hj
        rw [List.mem_range] at hj
        have hwij : (p.weights.getD i [])[j]? = some ((p.weights.getD i []).getD j 0) :=
          getElem?_eq_some_getD 0 hj
        have hdj : ((List.range p.nodes_out).map (fun i2 =>
            errors.getD i2 0 * l.activation.derivative (p.outputs.getD i2 0)))[j]? =
            some (errors.getD j 0 * l.activation.derivative (p.outputs.getD j 0)) :=
          getElem?_range_map (by rw [← hrow _ hmem]; exact hj)
        simp only [hwij, hdj, Option.bind_eq_bind, Option.some_bind]
        rfl
      simp only [Option.bind_eq_bind] at hinner
      simp only [hri, hxi, Option.bind_eq_bind, Option.some_bind]
      exact hinner
    rw [hmain, hW]
    congr 1
    apply List.map_eq_map_iff.mpr
    intro i hi
    rw [List.mem_range] at hi
    have hmem : p.weights.getD i [] ∈ p.weights := by
      rw [List.getD_eq_getElem?_getD,
        List.getElem?_eq_getElem (by omega : i < p.weights.length)]
      exact List.getElem_mem _
    rw [hrow _ hmem]
  have hbiases : optMap (fun i => do
      let bi ← p.biases[i]?
      let di ← ((List.range p.nodes_out).map (fun i2 =>
        errors.getD i2 0 * l.activation.derivative (p.outputs.getD i2 0)))[i]?
      pure (bi - lr * di)) (List.range p.biases.length) =
      some ((List.range p.nodes_out).map (fun i =>
        p.biases.getD i 0 - lr *
          (errors.getD i 0 * l.activation.derivative (p.outputs.getD i 0)))) := by
    rw [hb]
    apply optMap_eq_map
    intro i hi
    rw [List.mem_range] at hi
    have h1 : p.biases[i]? = some (p.biases.getD i 0) := getElem?_eq_some_getD 0 (by omega)
    have h2 : ((List.range p.nodes_out).map (fun i2 =>
        errors.getD i2 0 * l.activation.derivative (p.outputs.getD i2 0)))[i]? =
        some (errors.getD i 0 * l.activation.derivative (p.outputs.getD i 0)) :=
      getElem?_range_map hi
    simp only [h1, h2, Option.bind_eq_bind, Option.some_bind]
    rfl
  simp only [Option.bind_eq_bind] at hdelta hweights hbiases
  simp only [Option.bind_eq_bind, Option.some_bind]
  rw [hdelta]
  simp only [Option.some_bind]
  rw [hweights]
  simp only [Option.some_bind]
  rw [hbiases]
  simp only [Option.some_bind]
  have hnd : optFoldl (fun nd i => do
      let row ← ((List.range p.nodes_in).map (fun i2 =>
        (List.range p.nodes_out).map (fun j =>
          (p.weights.getD i2 []).getD j 0 - lr * (p.inputs.getD i2 0 *
            (errors.getD j 0 * l.activation.derivative (p.outputs.getD j 0))))))[i]?
      optFoldl (fun nd2 j => do
          let cur ← nd2[i]?
          let wij ← row[j]?
          let dj ← ((List.range p.nodes_out).map (fun i2 =>
            errors.getD i2 0 * l.activation.derivative (p.outputs.getD i2 0)))[j]?
          let xi ← p.inputs[i]?
          pure (nd2.set i (cur + wij * dj * xi))) nd (List.range row.length))
      (List.replicate p.nodes_in (0 : ℚ))
      (List.range ((List.range p.nodes_in).map (fun i2 =>
        (List.range p.nodes_out).map (fun j =>
          (p.weights.getD i2 []).getD j 0 - lr * (p.inputs.getD i2 0 *
            (errors.getD j 0 * l.activation.derivative (p.outputs.getD j 0)))))).length) =
      some ((List.range p.nodes_in).map (fun k =>
        ((List.range p.nodes_out).map (fun j =>
          ((p.weights.getD k []).getD j 0 - lr * (p.inputs.getD k 0 *
            (errors.getD j 0 * l.activation.derivative (p.outputs.getD j 0)))) *
          (errors.getD j 0 * l.activation.derivative (p.outputs.getD j 0)) *
          p.inputs.getD k 0)).sum)) := by
    have hlen : ((List.range p.nodes_in).map (fun i2 =>
        (List.range p.nodes_out).map (fun j =>
          (p.weights.getD i2 []).getD j 0 - lr * (p.inputs.getD i2 0 *
            (errors.getD j 0 * l.activation.derivative (p.outputs.getD j 0)))))).length =
        p.nodes_in := by
      rw [List.length_map, List.length_range]
    rw [hlen]
    have hstep := optFoldl_eq_foldl (fun nd => nd.length = p.nodes_in)
      (f := fun nd i => do
        let row ← ((List.range p.nodes_in).map (fun i2 =>
          (List.range p.nodes_out).map (fun j =>
            (p.weights.getD i2 []).getD j 0 - lr * (p.inputs.getD i2 0 *
              (errors.getD j 0 * l.activation.derivative (p.outputs.getD j 0))))))[i]?
        optFoldl (fun nd2 j => do
            let cur ← nd2[i]?
            let wij ← row[j]?
            let dj ← ((List.range p.nodes_out).map (fun i2 =>
              errors.getD i2 0 * l.activation.derivative (p.outputs.getD i2 0)))[j]?
            let xi ← p.inputs[i]?
            pure (nd2.set i (cur + wij * dj * xi))) nd (List.range row.length))
      (L := List.range p.nodes_in) (a := List.replicate p.nodes_in (0 : ℚ))
      (g := fun nd i => nd.set i (nd.getD i 0 +
        ((List.range p.nodes_out).map (fun j =>
          ((p.weights.getD i []).getD j 0 - lr * (p.inputs.getD i 0 *
            (errors.getD j 0 * l.activation.derivative (p.outputs.getD j 0)))) *
          (errors.getD j 0 * l.activation.derivative (p.outputs.getD j 0)) *
          p.inputs.getD i 0)).sum))
      (by simp)
      ?_
    · rw [hstep.1]
      congr 1
      have hchar := foldl_set_add_range (fun i =>
        ((List.range p.nodes_out).map (fun j =>
          ((p.weights.getD i []).getD j 0 - lr * (p.inputs.getD i 0 *
            (errors.getD j 0 * l.activation.derivative (p.outputs.getD j 0)))) *
          (errors.getD j 0 * l.activation.derivative (p.outputs.getD j 0)) *
          p.inputs.getD i 0)).sum) p.nodes_in (List.replicate p.nodes_in (0 : ℚ))
      apply List.ext_getElem?
      intro k
      rw [hchar.2 k]
      by_cases hk : k < p.nodes_in
      · rw [if_pos hk, getElem?_range_map hk]
        have : (List.replicate p.nodes_in (0 : ℚ))[k]? = some 0 := by
          simp [List.getElem?_replicate, hk]
        rw [this]
        simp only [Option.map_some']
        rw [zero_add]
      · rw [if_neg hk]
        have h1 : (List.replicate p.nodes_in (0 : ℚ))[k]? = none := by
          simp only [List.getElem?_replicate]
          rw [if_neg (by omega)]
        have h2 : ((List.range p.nodes_in).map (fun k =>
            ((List.range p.nodes_out).map (fun j =>
              ((p.weights.getD k []).getD j 0 - lr * (p.inputs.getD k 0 *
                (errors.getD j 0 * l.activation.derivative (p.outputs.getD j 0)))) *
              (errors.getD j 0 * l.activation.derivative (p.outputs.getD j 0)) *
              p.inputs.getD k 0)).sum))[k]? = none :=
          List.getElem?_eq_none (by rw [List.length_map, List.length_range]; omega)
        rw [h1, h2]
    · intro nd i hi hndlen
      rw [List.mem_range] at hi
      have hrowi : ((List.range p.nodes_in).map (fun i2 =>
          (List.range p.nodes_out).map (fun j =>
            (p.weights.getD i2 []).getD j 0 - lr * (p.inputs.getD i2 0 *
              (errors.getD j 0 * l.activation.derivative (p.outputs.getD j 0))))))[i]? =
          some ((List.range p.nodes_out).map (fun j =>
            (p.weights.getD i []).getD j 0 - lr * (p.inputs.getD i 0 *
              (errors.getD j 0 * l.activation.derivative (p.outputs.getD j 0))))) :=
        getElem?_range_map hi
      have hrl : ((List.range p.nodes_out).map (fun j =>
          (p.weights.getD i []).getD j 0 - lr * (p.inputs.getD i 0 *
            (errors.getD j 0 * l.activation.derivative (p.outputs.getD j 0))))).length =
          p.nodes_out := by
        rw [List.length_map, List.length_range]
      have hinner := optFoldl_eq_foldl (fun nd2 : List ℚ => nd2.length = p.nodes_in)
        (f := fun nd2 j => do
          let cur ← nd2[i]?
          let wij ← ((List.range p.nodes_out).map (fun j2 =>
            (p.weights.getD i []).getD j2 0 - lr * (p.inputs.getD i 0 *
              (errors.getD j2 0 * l.activation.derivative (p.outputs.getD j2 0)))))[j]?
          let dj ← ((List.range p.nodes_out).map (fun i2 =>
            errors.getD i2 0 * l.activation.derivative (p.outputs.getD i2 0)))[j]?
          let xi ← p.inputs[i]?
          pure (nd2.set i (cur + wij * dj * xi)))
        (L := List.range p.nodes_out) (a := nd)
        (g := fun nd2 j => nd2.set i (nd2.getD i 0 +
          ((p.weights.getD i []).getD j 0 - lr * (p.inputs.getD i 0 *
            (errors.getD j 0 * l.activation.derivative (p.outputs.getD j 0)))) *
          (errors.getD j 0 * l.activation.derivative (p.outputs.getD j 0)) *
          p.inputs.getD i 0))
        hndlen
        ?_
      · constructor
        · simp only [Option.bind_eq_bind] at hinner
          simp only [hrowi, Option.bind_eq_bind, Option.some_bind, hrl]
          rw [hinner.1, foldl_set_acc i _ _ nd (by omega)]
        · simp only [List.length_set]
          exact hndlen
      · intro nd2 j hj hnd2
        rw [List.mem_range] at hj
        have hcur : nd2[i]? = some (nd2.getD i 0) := getElem?_eq_some_getD 0 (by omega)
        have hwij : ((List.range p.nodes_out).map (fun j2 =>
            (p.weights.getD i []).getD j2 0 - lr * (p.inputs.getD i 0 *
              (errors.getD j2 0 * l.activation.derivative (p.outputs.getD j2 0)))))[j]? =
            some ((p.weights.getD i []).getD j 0 - lr * (p.inputs.getD i 0 *
              (errors.getD j 0 * l.activation.derivative (p.outputs.getD j 0)))) :=
          getElem?_range_map hj
        have hdj : ((List.range p.nodes_out).map (fun i2 =>
            errors.getD i2 0 * l.activation.derivative (p.outputs.getD i2 0)))[j]? =
            some (errors.getD j 0 * l.activation.derivative (p.outputs.getD j 0)) :=
          getElem?_range_map hj
        have hxi : p.inputs[i]? = some (p.inputs.getD i 0) := getElem?_eq_some_getD 0 (by omega)
        constructor
        · simp only [hcur, hwij, hdj, hxi, Option.bind_eq_bind, Option.some_bind]
          rfl
        · simp only [List.length_set]
          exact hnd2
  simp only [Option.bind_eq_bind] at hnd
  rw [hnd]
  simp only [Option.some_bind]
  rfl

/-! ### Concrete fixtures used by the witnesses -/

/-- A concrete activation instance (identity with constant derivative 1) used
only to instantiate theorems at concrete layers. -/
def idActivation : Activation := { function := fun x => x, derivative := fun _ => 1 }

/-- Concrete dense parameters: 2 input nodes, 1 output node. -/
def dfP : DenseParams :=
  { nodes_in := 2, nodes_out := 1, outputs := [], inputs := [],
    weights := [[2], [3]], biases := [5] }

/-- Concrete dense layer wrapping `dfP`. -/
def denseFix : Layer :=
  { activation := idActivation, layer_type := LayerType.Dense,
    conv_params := none, dense_params := some dfP }

/-! ### Claim C1 -/

/-- C1: for every dense layer with weights `W` (`nodes_in × nodes_out`),
biases `b`, and every input `x` of length `nodes_in`, `dense_forward` returns
the vector whose `i`-th entry is
`activation.function(b[i] + Σ_j x[j] * W[j][i])`, and on return the `inputs`
cache equals `x` and the `outputs` cache equals the returned vector. -/
theorem dense_forward_computes_weighted_activation
    (l : Layer) (p : DenseParams) (xs : List ℚ)
    (hp : l.dense_params = some p)
    (hW : p.weights.length = p.nodes_in)
    (hrow : ∀ row ∈ p.weights, row.length = p.nodes_out)
    (hb : p.biases.length = p.nodes_out)
    (hx : xs.length = p.nodes_in) :
    ∃ l' out, l.dense_forward xs = some (l', out) ∧
      out.length = p.nodes_out ∧
      (∀ i < p.nodes_out, out[i]? = some (l.activation.function (p.biases.getD i 0 +
        ((List.range p.nodes_in).map
          (fun j => xs.getD j 0 * (p.weights.getD j []).getD i 0)).sum))) ∧
      ∃ p', l'.dense_params = some p' ∧ p'.inputs = xs ∧ p'.outputs = out := by
  refine ⟨_, _, dense_forward_eq hp hW hrow hb hx.ge, ?_, ?_, ?_⟩
  · simp
  · intro i hi
    exact getElem?_range_map hi
  · exact ⟨_, rfl, rfl, rfl⟩

/-- Witness for C1 at the concrete layer `denseFix` with input `[1, 1]`. -/
theorem dense_forward_computes_weighted_activation_witness :
    ∃ l' out, denseFix.dense_forward [1, 1] = some (l', out) ∧
      out.length = dfP.nodes_out ∧
      (∀ i < dfP.nodes_out, out[i]? = some (denseFix.activation.function (dfP.biases.getD i 0 +
        ((List.range dfP.nodes_in).map
          (fun j => ([1, 1] : List ℚ).getD j 0 * (dfP.weights.getD j []).getD i 0)).sum))) ∧
      ∃ p', l'.dense_params = some p' ∧ p'.inputs = [1, 1] ∧ p'.outputs = out :=
  dense_forward_computes_weighted_activation denseFix dfP [1, 1]
    rfl (by decide) (by decide) (by decide) (by decide)

/-! ### Claim C2 -/

/-- C2: after a matching forward pass, `dense_backward` returns `next_delta`
of length `nodes_in` with
`next_delta[k] = Σ_i weight[k][i] * delta[i] * cached_input[k]` where
`delta[i] = errors[i] * activation.derivative(cached_output[i])` and the
`weight[k][i]` factors are read from the already-updated weight matrix of the
returned layer (the weight update happens before the upstream-gradient sum). -/
theorem dense_backward_next_delta_uses_updated_weights
    (l : Layer) (p : DenseParams) (errors : List ℚ) (lr : ℚ)
    (hp : l.dense_params = some p)
    (hW : p.weights.length = p.nodes_in)
    (hrow : ∀ row ∈ p.weights, row.length = p.nodes_out)
    (hb : p.biases.length = p.nodes_out)
    (hin : p.inputs.length = p.nodes_in)
    (hout : p.outputs.length = p.nodes_out)
    (he : errors.length = p.nodes_out) :
    ∃ l' nd p', l.dense_backward errors lr = some (l', nd) ∧
      l'.dense_params = some p' ∧
      nd.length = p.nodes_in ∧
      ∀ k < p.nodes_in, nd[k]? = some
        (((List.range p.nodes_out).map (fun i =>
          (p'.weights.getD k []).getD i 0 *
          (errors.getD i 0 * l.activation.derivative (p.outputs.getD i 0)) *
          p.inputs.getD k 0)).sum) := by
  refine ⟨_, _, _, dense_backward_eq hp hW hrow hb hin hout he, rfl, ?_, ?_⟩
  · simp
  · intro k hk
    rw [getElem?_range_map hk]
    congr 2
    apply List.map_eq_map_iff.mpr
    intro i hi
    rw [List.mem_range] at hi
    congr 1
    rw [getD_range_map [] hk, getD_range_map 0 hi]

/-- Witness for C2 at the concrete layer `denseFix` after a forward pass with
input `[1, 1]`, errors `[2]`, learning rate `1/2`. -/
theorem dense_backward_next_delta_uses_updated_weights_witness :
    ∃ l' nd p',
      Layer.dense_backward
        { activation := idActivation, layer_type := LayerType.Dense, conv_params := none,
          dense_params := some { dfP with inputs := [1, 1], outputs := [10] } } [2] (1/2) =
        some (l', nd) ∧
      l'.dense_params = some p' ∧
      nd.length = dfP.nodes_in ∧
      ∀ k < dfP.nodes_in, nd[k]? = some
        (((List.range dfP.nodes_out).map (fun i =>
          (p'.weights.getD k []).getD i 0 *
          (([2] : List ℚ).getD i 0 * idActivation.derivative (([10] : List ℚ).getD i 0)) *
          (([1, 1] : List ℚ).getD k 0))).sum) :=
  dense_backward_next_delta_uses_updated_weights
    { activation := idActivation, layer_type := LayerType.Dense, conv_params := none,
      dense_params := some { dfP with inputs := [1, 1], outputs := [10] } }
    { dfP with inputs := [1, 1], outputs := [10] } [2] (1/2)
    rfl (by decide) (by decide) (by decide) (by decide) (by decide) (by decide)

/-! ### Claim C3 -/

/-- C3: after a matching forward pass, `dense_backward` updates in place every
weight cell to `weight[k][j] - lr * cached_input[k] * delta[j]` and every bias
to `bias[j] - lr * delta[j]`, with
`delta[j] = errors[j] * activation.derivative(cached_output[j])`. -/
theorem dense_backward_updates_weights_biases
    (l : Layer) (p : DenseParams) (errors : List ℚ) (lr : ℚ)
    (hp : l.dense_params = some p)
    (hW : p.weights.length = p.nodes_in)
    (hrow : ∀ row ∈ p.weights, row.length = p.nodes_out)
    (hb : p.biases.length = p.nodes_out)
    (hin : p.inputs.length = p.nodes_in)
    (hout : p.outputs.length = p.nodes_out)
    (he : errors.length = p.nodes_out) :
    ∃ l' nd p', l.dense_backward errors lr = some (l', nd) ∧
      l'.dense_params = some p' ∧
      p'.weights.length = p.nodes_in ∧
      (∀ k < p.nodes_in, (p'.weights.getD k []).length = p.nodes_out ∧
        ∀ j < p.nodes_out, (p'.weights.getD k []).getD j 0 =
          (p.weights.getD k []).getD j 0 - lr * (p.inputs.getD k 0 *
            (errors.getD j 0 * l.activation.derivative (p.outputs.getD j 0)))) ∧
      p'.biases.length = p.nodes_out ∧
      (∀ j < p.nodes_out, p'.biases.getD j 0 = p.biases.getD j 0 - lr *
        (errors.getD j 0 * l.activation.derivative (p.outputs.getD j 0))) := by
  refine ⟨_, _, _, dense_backward_eq hp hW hrow hb hin hout he, rfl, ?_, ?_, ?_, ?_⟩
  · simp
  · intro k hk
    rw [getD_range_map [] hk]
    constructor
    · simp
    · intro j hj
      rw [getD_range_map 0 hj]
  · simp
  · intro j hj
    rw [getD_range_map 0 hj]

/-- Witness for C3 at the same concrete instance as the C2 witness. -/
theorem dense_backward_updates_weights_biases_witness :
    ∃ l' nd p',
      Layer.dense_backward
        { activation := idActivation, layer_type := LayerType.Dense, conv_params := none,
          dense_params := some { dfP with inputs := [1, 1], outputs := [10] } } [2] (1/2) =
        some (l', nd) ∧
      l'.dense_params = some p' ∧
      p'.weights.length = dfP.nodes_in ∧
      (∀ k < dfP.nodes_in, (p'.weights.getD k []).length = dfP.nodes_out ∧
        ∀ j < dfP.nodes_out, (p'.weights.getD k []).getD j 0 =
          (dfP.weights.getD k []).getD j 0 - (1/2) * (([1, 1] : List ℚ).getD k 0 *
            (([2] : List ℚ).getD j 0 * idActivation.derivative (([10] : List ℚ).getD j 0)))) ∧
      p'.biases.length = dfP.nodes_out ∧
      (∀ j < dfP.nodes_out, p'.biases.getD j 0 = dfP.biases.getD j 0 - (1/2) *
        (([2] : List ℚ).getD j 0 * idActivation.derivative (([10] : List ℚ).getD j 0))) :=
  dense_backward_updates_weights_biases
    { activation := idActivation, layer_type := LayerType.Dense, conv_params := none,
      dense_params := some { dfP with inputs := [1, 1], outputs := [10] } }
    { dfP with inputs := [1, 1], outputs := [10] } [2] (1/2)
    rfl (by decide) (by decide) (by decide) (by decide) (by decide) (by decide)

/-! ### Claim C8 -/

/-- Reading a replicated zero vector with default 0 always yields 0. -/
theorem getD_replicate_zero (n j : Nat) : (List.replicate n (0 : ℚ)).getD j 0 = 0 := by
  rw [List.getD_eq_getElem?_getD, List.getElem?_replicate]
  split <;> rfl

/-- Rebuilding a vector entry by entry over its index range is the identity. -/
theorem range_map_getD_eq {r : List ℚ} {n : Nat} (h : r.length = n) :
    (List.range n).map (fun j => r.getD j 0) = r := by
  apply List.ext_getElem?
  intro k
  by_cases hk : k < n
  · rw [getElem?_range_map hk, getElem?_eq_some_getD 0 (by omega)]
  · rw [List.getElem?_eq_none (by rw [List.length_map, List.length_range]; omega),
      List.getElem?_eq_none (by omega)]

/-- Rebuilding a rectangular grid cell by cell over its index ranges is the
identity. -/
theorem range_range_map_getD_eq {W : Grid} {m n : Nat} (h : W.length = m)
    (hr : ∀ row ∈ W, row.length = n) :
    (List.range m).map (fun i => (List.range n).map (fun j => (W.getD i []).getD j 0)) = W := by
  apply List.ext_getElem?
  intro k
  by_cases hk : k < m
  · rw [getElem?_range_map hk, getElem?_eq_some_getD [] (by omega)]
    have hmem : W.getD k [] ∈ W := by
      rw [List.getD_eq_getElem?_getD, List.getElem?_eq_getElem (by omega : k < W.length)]
      exact List.getElem_mem _
    rw [range_map_getD_eq (hr _ hmem)]
  · rw [List.getElem?_eq_none (by rw [List.length_map, List.length_range]; omega),
      List.getElem?_eq_none (by omega)]

/-- C8: running `dense_forward` and then `dense_backward` with the all-zero
error vector (any learning rate) leaves every weight cell and every bias
exactly unchanged. The spec's proviso that the activation derivative be finite
is automatic in this exact-arithmetic embedding, where every derivative value
is a finite rational. -/
theorem dense_zero_error_backward_preserves_params
    (l : Layer) (p : DenseParams) (xs : List ℚ) (lr : ℚ)
    (hp : l.dense_params = some p)
    (hW : p.weights.length = p.nodes_in)
    (hrow : ∀ row ∈ p.weights, row.length = p.nodes_out)
    (hb : p.biases.length = p.nodes_out)
    (hx : xs.length = p.nodes_in) :
    ∃ l1 out l2 nd p2, l.dense_forward xs = some (l1, out) ∧
      l1.dense_backward (List.replicate p.nodes_out 0) lr = some (l2, nd) ∧
      l2.dense_params = some p2 ∧ p2.weights = p.weights ∧ p2.biases = p.biases := by
  refine ⟨_, _, _, _, _, dense_forward_eq hp hW hrow hb hx.ge,
    dense_backward_eq rfl hW hrow hb (by rw [hx]) (by simp) (by simp), rfl, ?_, ?_⟩
  · simp only [getD_replicate_zero, zero_mul, mul_zero, sub_zero]
    exact range_range_map_getD_eq hW hrow
  · simp only [getD_replicate_zero, zero_mul, mul_zero, sub_zero]
    exact range_map_getD_eq hb

/-- Witness for C8 at the concrete layer `denseFix`, input `[1, 1]`, learning
rate `7`. -/
theorem dense_zero_error_backward_preserves_params_witness :
    ∃ l1 out l2 nd p2, denseFix.dense_forward [1, 1] = some (l1, out) ∧
      l1.dense_backward (List.replicate dfP.nodes_out 0) 7 = some (l2, nd) ∧
      l2.dense_params = some p2 ∧ p2.weights = dfP.weights ∧ p2.biases = dfP.biases :=
  dense_zero_error_backward_preserves_params denseFix dfP [1, 1] 7
    rfl (by decide) (by decide) (by decide) (by decide)

/-! ### Claim C9 -/

/-- C9 (amended): with at least one output node and well-formed parameter
dimensions, `dense_forward` faults (returns no value) exactly when the input
is shorter than `nodes_in`; an input longer than `nodes_in` does not fault —
the extra entries are ignored and a value is returned. -/
theorem dense_forward_isSome_iff_input_long_enough
    (l : Layer) (p : DenseParams) (xs : List ℚ)
    (hp : l.dense_params = some p)
    (hW : p.weights.length = p.nodes_in)
    (hrow : ∀ row ∈ p.weights, row.length = p.nodes_out)
    (hb : p.biases.length = p.nodes_out)
    (hout : 0 < p.nodes_out) :
    (l.dense_forward xs).isSome = true ↔ p.nodes_in ≤ xs.length := by
  constructor
  · intro h
    by_contra hlt
    push_neg at hlt
    rw [dense_forward_none hp hW hrow hb hout hlt] at h
    simp at h
  · intro h
    rw [dense_forward_eq hp hW hrow hb h]
    rfl

/-- Witness for the amended C9 at the concrete layer `denseFix` with input
`[5, 6]`. -/
theorem dense_forward_isSome_iff_input_long_enough_witness :
    (denseFix.dense_forward [5, 6]).isSome = true ↔ dfP.nodes_in ≤ ([5, 6] : List ℚ).length :=
  dense_forward_isSome_iff_input_long_enough denseFix dfP [5, 6]
    rfl (by decide) (by decide) (by decide) (by decide)

/-- Counterexample to C9 as stated: the input `[1, 2, 3]` is longer than
`nodes_in = 2`, yet `dense_forward` returns a value instead of failing fast
(the loops only read the first `nodes_in` entries). -/
theorem dense_forward_long_input_returns_value :
    ([1, 2, 3] : List ℚ).length ≠ dfP.nodes_in ∧
      (denseFix.dense_forward [1, 2, 3]).isSome = true := by
  constructor
  · decide
  · rfl

/-! ### Claim C10 -/

/-- The tag/container shape of a layer: its `layer_type` and which of the two
parameter containers is present. -/
def Layer.SameShape (l l' : Layer) : Prop :=
  l'.layer_type = l.layer_type ∧
    l'.dense_params.isSome = l.dense_params.isSome ∧
    l'.conv_params.isSome = l.conv_params.isSome

/-- `dense_forward` preserves the tag/container shape whenever it returns. -/
theorem dense_forward_shape {l : Layer} {xs : List ℚ} {r : Layer × List ℚ}
    (h : l.dense_forward xs = some r) : Layer.SameShape l r.1 := by
  unfold Layer.dense_forward at h
  cases hdp : l.dense_params with
  | none => rw [hdp] at h; exact absurd h (by simp)
  | some p =>
    rw [hdp] at h
    simp only [Option.bind_eq_bind, Option.some_bind, Option.bind_eq_some] at h
    obtain ⟨w, hw, h⟩ := h
    obtain rfl := Option.some.inj h
    exact ⟨rfl, by simp [hdp], rfl⟩

/-- `dense_backward` preserves the tag/container shape whenever it returns. -/
theorem dense_backward_shape {l : Layer} {es : List ℚ} {lr : ℚ} {r : Layer × List ℚ}
    (h : l.dense_backward es lr = some r) : Layer.SameShape l r.1 := by
  unfold Layer.dense_backward at h
  cases hdp : l.dense_params with
  | none => rw [hdp] at h; exact absurd h (by simp)
  | some p =>
    rw [hdp] at h
    simp only [Option.bind_eq_bind, Option.some_bind, Option.bind_eq_some] at h
    obtain ⟨d, hd, w, hw, b, hbs, nd, hnd, h⟩ := h
    obtain rfl := Option.some.inj h
    exact ⟨rfl, by simp [hdp], rfl⟩

/-- `conv_forward` preserves the tag/container shape whenever it returns. -/
theorem conv_forward_shape {padFn : Grid → Grid} {l : Layer} {xs : Grid} {r : Layer × Grid}
    (h : Layer.conv_forward padFn l xs = some r) : Layer.SameShape l r.1 := by
  unfold Layer.conv_forward at h
  cases hcp : l.conv_params with
  | none => rw [hcp] at h; exact absurd h (by simp)
  | some p =>
    rw [hcp] at h
    simp only [Option.bind_eq_bind, Option.some_bind, Option.bind_eq_some] at h
    obtain ⟨w, hw, h⟩ := h
    obtain rfl := Option.some.inj h
    exact ⟨rfl, rfl, by simp [hcp]⟩

/-- `conv_backward` preserves the tag/container shape whenever it returns. -/
theorem conv_backward_shape {l : Layer} {es : Grid} {lr : ℚ} {r : Layer × Grid}
    (h : l.conv_backward es lr = some r) : Layer.SameShape l r.1 := by
  unfold Layer.conv_backward at h
  cases hcp : l.conv_params with
  | none => rw [hcp] at h; exact absurd h (by simp)
  | some p =>
    rw [hcp] at h
    simp only [Option.bind_eq_bind, Option.some_bind, Option.bind_eq_some] at h
    obtain ⟨d, hd, wg, hwg, dr, hdr, pg, hpg, nd, hnd, h⟩ := h
    obtain rfl := Option.some.inj h
    exact ⟨rfl, rfl, by simp [hcp]⟩

/-- `reset` preserves the tag/container shape whenever it returns. -/
theorem reset_shape {l : Layer} {r : Layer} (h : l.reset = some r) : Layer.SameShape l r := by
  unfold Layer.reset at h
  cases hdp : l.dense_params with
  | none => rw [hdp] at h; exact absurd h (by simp)
  | some p =>
    rw [hdp] at h
    simp only [Option.bind_eq_bind, Option.some_bind] at h
    obtain rfl := Option.some.inj h
    exact ⟨rfl, by simp [hdp], rfl⟩

/-- `set_params` preserves the tag/container shape whenever it returns. -/
theorem set_params_shape {l : Layer} {w : Grid} {b : List ℚ} {r : Layer}
    (h : l.set_params w b = some r) : Layer.SameShape l r := by
  unfold Layer.set_params at h
  cases hdp : l.dense_params with
  | none => rw [hdp] at h; exact absurd h (by simp)
  | some p =>
    rw [hdp] at h
    simp only [Option.bind_eq_bind, Option.some_bind] at h
    obtain rfl := Option.some.inj h
    exact ⟨rfl, by simp [hdp], rfl⟩

/-- C10: the dense constructor produces tag `Dense` with only the dense
container present; the conv constructor produces tag `Convolutional` with only
the conv container present; and every state-updating public operation
(`dense_forward`, `dense_backward`, `conv_forward`, `conv_backward`, `reset`,
`set_params`) preserves the tag and which container is present. The accessors
(`get_weights`, `get_biases`, `get_nodes`, `get_input_nodes`, `get_outputs`,
`get_layer_type`) are modelled as pure reads returning copies, so they cannot
change the layer at all. -/
theorem layer_tag_and_container_invariants :
    (∀ (n0 n1 : Nat) (act : Activation) (rw : Nat → Nat → ℚ) (rb : Nat → ℚ),
      (Layer.dense n0 n1 act rw rb).layer_type = LayerType.Dense ∧
      (Layer.dense n0 n1 act rw rb).dense_params.isSome = true ∧
      (Layer.dense n0 n1 act rw rb).conv_params = none) ∧
    (∀ (k : Nat) (pt : PaddingType) (s : Nat) (act : Activation) (rw : Nat → Nat → ℚ) (rb : ℚ),
      (Layer.conv k pt s act rw rb).layer_type = LayerType.Convolutional ∧
      (Layer.conv k pt s act rw rb).conv_params.isSome = true ∧
      (Layer.conv k pt s act rw rb).dense_params = none) ∧
    (∀ (l : Layer) (xs : List ℚ) (r : Layer × List ℚ),
      l.dense_forward xs = some r → Layer.SameShape l r.1) ∧
    (∀ (l : Layer) (es : List ℚ) (lr : ℚ) (r : Layer × List ℚ),
      l.dense_backward es lr = some r → Layer.SameShape l r.1) ∧
    (∀ (padFn : Grid → Grid) (l : Layer) (xs : Grid) (r : Layer × Grid),
      Layer.conv_forward padFn l xs = some r → Layer.SameShape l r.1) ∧
    (∀ (l : Layer) (es : Grid) (lr : ℚ) (r : Layer × Grid),
      l.conv_backward es lr = some r → Layer.SameShape l r.1) ∧
    (∀ (l : Layer) (r : Layer), l.reset = some r → Layer.SameShape l r) ∧
    (∀ (l : Layer) (w : Grid) (b : List ℚ) (r : Layer),
      l.set_params w b = some r → Layer.SameShape l r) := by
  refine ⟨?_, ?_, ?_, ?_, ?_, ?_, ?_, ?_⟩
  · intro n0 n1 act rw rb
    exact ⟨rfl, rfl, rfl⟩
  · intro k pt s act rw rb
    exact ⟨rfl, rfl, rfl⟩
  · intro l xs r h
    exact dense_forward_shape h
  · intro l es lr r h
    exact dense_backward_shape h
  · intro padFn l xs r h
    exact conv_forward_shape h
  · intro l es lr r h
    exact conv_backward_shape h
  · intro l r h
    exact reset_shape h
  · intro l w b r h
    exact set_params_shape h

/-! ### Grid lemmas for the convolutional pass -/

/-- A rectangular grid of the stated height and width. -/
abbrev RectGrid (g : Grid) (h w : Nat) : Prop :=
  g.length = h ∧ ∀ row ∈ g, row.length = w

/-- Cell read with defaults, used to state grid facts. -/
def cellD (g : Grid) (i j : Nat) : ℚ :=
  (g.getD i []).getD j 0

/-- Every row of a rectangular grid below its height has the stated width. -/
theorem rect_row_len {g : Grid} {h w i : Nat} (hr : RectGrid g h w) (hi : i < h) :
    (g.getD i []).length = w := by
  apply hr.2
  rw [List.getD_eq_getElem?_getD, List.getElem?_eq_getElem (by omega : i < g.length)]
  exact List.getElem_mem _

/-- In-bounds `getCell` succeeds with the `cellD` value. -/
theorem getCell_eq {g : Grid} {i j : Nat} (hi : i < g.length)
    (hj : j < (g.getD i []).length) :
    getCell g i j = some (cellD g i j) := by
  unfold getCell cellD
  rw [getElem?_eq_some_getD [] hi]
  simp only [Option.bind_eq_bind, Option.some_bind]
  exact getElem?_eq_some_getD 0 hj

/-- `setCell` preserves the number of rows. -/
theorem length_setCell (g : Grid) (i j : Nat) (v : ℚ) :
    (setCell g i j v).length = g.length :=
  List.length_set g i ((g.getD i []).set j v)

/-- Lookup with default into an updated list. -/
theorem getD_set_list {α} (l : List α) (i a : Nat) (x d : α) :
    (l.set i x).getD a d = if i = a ∧ i < l.length then x else l.getD a d := by
  rw [List.getD_eq_getElem?_getD, List.getElem?_set]
  rcases eq_or_ne i a with rfl | hne
  · by_cases h2 : i < l.length
    · rw [if_pos rfl, if_pos h2, if_pos ⟨rfl, h2⟩]
      rfl
    · rw [if_pos rfl, if_neg h2, if_neg (by tauto), List.getD_eq_getElem?_getD,
        List.getElem?_eq_none (by omega)]
  · rw [if_neg hne, if_neg (by tauto), List.getD_eq_getElem?_getD]

/-- `setCell` preserves the length of every row. -/
theorem rowlen_setCell (g : Grid) (i j : Nat) (v : ℚ) (a : Nat) :
    ((setCell g i j v).getD a []).length = (g.getD a []).length := by
  unfold setCell
  rw [getD_set_list]
  by_cases hc : i = a ∧ i < g.length
  · rw [if_pos hc, List.length_set]
    rw [hc.1]
  · rw [if_neg hc]

/-- Cell values after `setCell`: the written cell holds the new value, all
other cells are unchanged. -/
theorem cellD_setCell {g : Grid} {i j : Nat} (v : ℚ)
    (hi : i < g.length) (hj : j < (g.getD i []).length) :
    ∀ a b, cellD (setCell g i j v) a b = if a = i ∧ b = j then v else cellD g a b := by
  intro a b
  unfold setCell cellD
  rw [getD_set_list]
  rcases eq_or_ne a i with rfl | hne
  · rw [if_pos ⟨rfl, hi⟩, getD_set_list]
    rcases eq_or_ne b j with rfl | hbne
    · rw [if_pos ⟨rfl, hj⟩, if_pos ⟨rfl, rfl⟩]
    · rw [if_neg (by tauto), if_neg (by tauto)]
  · rw [if_neg (by tauto), if_neg (by tauto)]

/-- Value of the innermost kernel accumulation of `conv_forward`: starting
from `init`, it adds every `img[j*stride+r][k*stride+c] * weights[r][c]` and
adds the bias once per kernel element (`kernel²` times in total). -/
theorem convCell_eq {kern stride : Nat} {W img : Grid} {b : ℚ} {j k : Nat} {h w : Nat}
    (himg : RectGrid img h w) (hW : RectGrid W kern kern)
    (hj : j * stride + kern ≤ h) (hk : k * stride + kern ≤ w) (init : ℚ) :
    convCell kern stride W img b j k init = some (init +
      ((List.range kern).map (fun r => ((List.range kern).map (fun c =>
        cellD img (j * stride + r) (k * stride + c) * cellD W r c)).sum)).sum +
      ((kern * kern : Nat) : ℚ) * b) := by
  unfold convCell
  have hstep : ∀ (acc : ℚ) (r : Nat), r ∈ List.range kern →
      optFoldl (fun acc2 c => do
          let iv ← getCell img (j * stride + r) (k * stride + c)
          let wv ← getCell W r c
          pure (acc2 + iv * wv + b)) acc (List.range kern) =
        some (acc + (((List.range kern).map (fun c =>
          cellD img (j * stride + r) (k * stride + c) * cellD W r c)).sum + kern * b)) := by
    intro acc r hr
    rw [List.mem_range] at hr
    have hfold : optFoldl (fun acc2 c => do
        let iv ← getCell img (j * stride + r) (k * stride + c)
        let wv ← getCell W r c
        pure (acc2 + iv * wv + b)) acc (List.range kern) =
        some ((List.range kern).foldl (fun acc2 c =>
          acc2 + (cellD img (j * stride + r) (k * stride + c) * cellD W r c + b)) acc) := by
      apply optFoldl_eq_foldl'
      intro acc2 c hc
      rw [List.mem_range] at hc
      have hrowi : j * stride + r < h := by omega
      have hcoli : k * stride + c < (img.getD (j * stride + r) []).length := by
        rw [rect_row_len himg hrowi]; omega
      have h1 : getCell img (j * stride + r) (k * stride + c) =
          some (cellD img (j * stride + r) (k * stride + c)) :=
        getCell_eq (by rw [himg.1]; omega) hcoli
      have h2 : getCell W r c = some (cellD W r c) :=
        getCell_eq (by rw [hW.1]; omega) (by rw [rect_row_len hW hr]; omega)
      simp only [h1, h2, Option.bind_eq_bind, Option.some_bind]
      rw [add_assoc]
      rfl
    rw [hfold, foldl_add_map (fun c =>
      cellD img (j * stride + r) (k * stride + c) * cellD W r c + b),
      sum_map_add_const (fun c =>
        cellD img (j * stride + r) (k * stride + c) * cellD W r c) b (List.range kern)]
    simp only [List.length_range]
  rw [optFoldl_eq_foldl' hstep, foldl_add_map (fun r =>
    ((List.range kern).map (fun c =>
      cellD img (j * stride + r) (k * stride + c) * cellD W r c)).sum + kern * b),
    sum_map_add_const (fun r => ((List.range kern).map (fun c =>
      cellD img (j * stride + r) (k * stride + c) * cellD W r c)).sum)
      ((kern : ℚ) * b) (List.range kern)]
  simp only [List.length_range]
  congr 1
  push_cast
  ring

/-- Build rectangularity from indexed row lengths. -/
theorem rect_of_getD {g : Grid} {H Wd : Nat} (hlen : g.length = H)
    (hrows : ∀ a, a < H → (g.getD a []).length = Wd) : RectGrid g H Wd := by
  refine ⟨hlen, ?_⟩
  intro row hrow
  obtain ⟨a, ha, hrow'⟩ := List.mem_iff_getElem.mp hrow
  have := hrows a (by omega)
  rw [List.getD_eq_getElem?_getD, List.getElem?_eq_getElem ha] at this
  rw [← hrow']
  exact this

/-- Characterization of the column loop of `conv_forward` on a duplicate-free
list of in-range column indices: every listed cell of row `j` accumulates its
convolution value (with the `kernel²` bias quirk), all other cells are
untouched, and the grid dimensions are preserved. -/
theorem convColsGo_spec {kern stride : Nat} {W img : Grid} {b : ℚ} {j : Nat}
    {h wd : Nat} (himg : RectGrid img h wd) (hW : RectGrid W kern kern)
    (hkern : 1 ≤ kern) (hstride : 1 ≤ stride) (hjh : j * stride + kern ≤ h) :
    ∀ (ks : List Nat) (wi : Grid) {H Wd : Nat}, RectGrid wi H Wd → j < H →
      ks.Nodup → (∀ k ∈ ks, k < Wd ∧ k * stride + kern ≤ wd) →
      ∃ wi', convColsGo kern stride W img b j ks wi = some wi' ∧
        RectGrid wi' H Wd ∧
        ∀ a c, cellD wi' a c = if a = j ∧ c ∈ ks then
          cellD wi j c +
          ((List.range kern).map (fun r => ((List.range kern).map (fun c2 =>
            cellD img (j * stride + r) (c * stride + c2) * cellD W r c2)).sum)).sum +
          ((kern * kern : Nat) : ℚ) * b
        else cellD wi a c := by
  intro ks
  induction ks with
  | nil =>
    intro wi H Wd hwi hjH hnodup hks
    refine ⟨wi, rfl, hwi, ?_⟩
    intro a c
    simp
  | cons k ks ih =>
    intro wi H Wd hwi hjH hnodup hks
    have hk := hks k (by simp)
    have hh1 : 0 < h := by omega
    have hrow0 : img[(0 : Nat)]? = some (img.getD 0 []) :=
      getElem?_eq_some_getD [] (by rw [himg.1]; omega)
    have hrow0len : (img.getD 0 []).length = wd := rect_row_len himg hh1
    have hnobreak : ¬ (k + kern > (img.getD 0 []).length) := by
      rw [hrow0len]
      have : k * 1 ≤ k * stride := Nat.mul_le_mul_left k hstride
      omega
    have hcur : getCell wi j k = some (cellD wi j k) :=
      getCell_eq (by rw [hwi.1]; omega) (by rw [rect_row_len hwi hjH]; omega)
    have hcell := convCell_eq (b := b) himg hW hjh hk.2 (cellD wi j k)
    have hset : RectGrid (setCell wi j k (cellD wi j k +
        ((List.range kern).map (fun r => ((List.range kern).map (fun c2 =>
          cellD img (j * stride + r) (k * stride + c2) * cellD W r c2)).sum)).sum +
        ((kern * kern : Nat) : ℚ) * b)) H Wd := by
      apply rect_of_getD
      · rw [length_setCell, hwi.1]
      · intro a ha
        rw [rowlen_setCell]
        exact rect_row_len hwi ha
    obtain ⟨wi', hrun, hrect, hcells⟩ := ih _ hset hjH
      (by exact (List.nodup_cons.mp hnodup).2)
      (fun k2 hk2 => hks k2 (by simp [hk2]))
    refine ⟨wi', ?_, hrect, ?_⟩
    · simp only [convColsGo, hrow0, Option.bind_eq_bind, Option.some_bind, if_neg hnobreak,
        hcur, hcell, hrun]
    · intro a c
      rw [hcells a c]
      have hknotin : k ∉ ks := (List.nodup_cons.mp hnodup).1
      have hsetcells := cellD_setCell (g := wi) (i := j) (j := k)
        (cellD wi j k +
          ((List.range kern).map (fun r => ((List.range kern).map (fun c2 =>
            cellD img (j * stride + r) (k * stride + c2) * cellD W r c2)).sum)).sum +
          ((kern * kern : Nat) : ℚ) * b)
        (by rw [hwi.1]; omega) (by rw [rect_row_len hwi hjH]; omega)
      by_cases hc1 : a = j ∧ c ∈ ks
      · rw [if_pos hc1, if_pos (by exact ⟨hc1.1, by simp [hc1.2]⟩), hsetcells]
        rw [if_neg (by rintro ⟨_, rfl⟩; exact hknotin hc1.2)]
      · rw [if_neg hc1]
        by_cases hc2 : a = j ∧ c = k
        · obtain ⟨rfl, rfl⟩ := hc2
          rw [hsetcells, if_pos ⟨rfl, rfl⟩, if_pos ⟨rfl, by simp⟩]
        · rw [hsetcells, if_neg hc2, if_neg (by
            rintro ⟨rfl, hcmem⟩
            rcases List.mem_cons.mp hcmem with rfl | hcks
            · exact hc2 ⟨rfl, rfl⟩
            · exact hc1 ⟨rfl, hcks⟩)]

/-- Characterization of the row loop of `conv_forward`: every cell `(a, c)`
with `a` in the duplicate-free list of in-range row indices and `c` below the
grid width accumulates its convolution value; dimensions are preserved. -/
theorem convRowsGo_spec {kern stride : Nat} {W img : Grid} {b : ℚ}
    {h wd : Nat} (himg : RectGrid img h wd) (hW : RectGrid W kern kern)
    (hkern : 1 ≤ kern) (hstride : 1 ≤ stride) :
    ∀ (js : List Nat) (wi : Grid) {H Wd : Nat}, RectGrid wi H Wd →
      js.Nodup → (∀ j ∈ js, j < H ∧ j * stride + kern ≤ h) →
      (∀ k, k < Wd → k * stride + kern ≤ wd) →
      ∃ wi', convRowsGo kern stride W img b js wi = some wi' ∧
        RectGrid wi' H Wd ∧
        ∀ a c, cellD wi' a c = if a ∈ js ∧ c < Wd then
          cellD wi a c +
          ((List.range kern).map (fun r => ((List.range kern).map (fun c2 =>
            cellD img (a * stride + r) (c * stride + c2) * cellD W r c2)).sum)).sum +
          ((kern * kern : Nat) : ℚ) * b
        else cellD wi a c := by
  intro js
  induction js with
  | nil =>
    intro wi H Wd hwi hnodup hjs hcols
    refine ⟨wi, rfl, hwi, ?_⟩
    intro a c
    simp
  | cons j js ih =>
    intro wi H Wd hwi hnodup hjs hcols
    have hj := hjs j (by simp)
    have hnobreak : ¬ (j + kern > img.length) := by
      rw [himg.1]
      have : j * 1 ≤ j * stride := Nat.mul_le_mul_left j hstride
      omega
    have hrowj : wi[j]? = some (wi.getD j []) :=
      getElem?_eq_some_getD [] (by rw [hwi.1]; omega)
    have hrowjlen : (wi.getD j []).length = Wd := rect_row_len hwi hj.1
    obtain ⟨wi1, hrun1, hrect1, hcells1⟩ := convColsGo_spec himg hW hkern hstride hj.2
      (List.range (wi.getD j []).length) wi hwi hj.1 (List.nodup_range _)
      (by
        intro k hk
        rw [List.mem_range, hrowjlen] at hk
        exact ⟨hk, hcols k hk⟩)
    obtain ⟨wi', hrun, hrect, hcells⟩ := ih wi1 hrect1
      (List.nodup_cons.mp hnodup).2
      (fun j2 hj2 => hjs j2 (by simp [hj2]))
      hcols
    have hjnotin : j ∉ js := (List.nodup_cons.mp hnodup).1
    refine ⟨wi', ?_, hrect, ?_⟩
    · simp only [convRowsGo, if_neg hnobreak, hrowj, Option.bind_eq_bind, Option.some_bind]
      rw [hrun1]
      simp only [Option.some_bind]
      exact hrun
    · intro a c
      rw [hcells a c]
      by_cases hc1 : a ∈ js ∧ c < Wd
      · rw [if_pos hc1, if_pos ⟨by simp [hc1.1], hc1.2⟩, hcells1 a c,
          if_neg (by rintro ⟨rfl, _⟩; exact hjnotin hc1.1)]
      · rw [if_neg hc1, hcells1 a c]
        by_cases hc2 : a = j ∧ c < Wd
        · obtain ⟨rfl, hcW⟩ := hc2
          rw [if_pos ⟨rfl, by rw [List.mem_range, hrowjlen]; exact hcW⟩,
            if_pos ⟨by simp, hcW⟩]
        · rw [if_neg (by
            rintro ⟨rfl, hcmem⟩
            rw [List.mem_range, hrowjlen] at hcmem
            exact hc2 ⟨rfl, hcmem⟩),
            if_neg (by
            rintro ⟨hmem, hcW⟩
            rcases List.mem_cons.mp hmem with rfl | hjs2
            · exact hc2 ⟨rfl, hcW⟩
            · exact hc1 ⟨hjs2, hcW⟩)]

/-- Head row of a nonempty rectangular grid has the stated width. -/
theorem rect_headD_len {g : Grid} {h w : Nat} (hr : RectGrid g h w) (hh : 0 < h) :
    (g.headD []).length = w := by
  cases g with
  | nil =>
    exfalso
    have := hr.1
    simp at this
    omega
  | cons r t => exact hr.2 r (by simp)

/-- A zero-filled replicated grid is rectangular. -/
theorem rect_replicate (H Wd : Nat) :
    RectGrid (List.replicate H (List.replicate Wd (0 : ℚ))) H Wd := by
  refine ⟨by simp, ?_⟩
  intro row hrow
  rw [List.eq_of_mem_replicate hrow]
  simp

/-- Every cell of a zero-filled replicated grid reads 0. -/
theorem cellD_replicate_zero (H Wd j k : Nat) :
    cellD (List.replicate H (List.replicate Wd (0 : ℚ))) j k = 0 := by
  unfold cellD
  have h1 : (List.replicate H (List.replicate Wd (0 : ℚ))).getD j [] =
      if j < H then List.replicate Wd 0 else [] := by
    rw [List.getD_eq_getElem?_getD, List.getElem?_replicate]
    split <;> rfl
  rw [h1]
  split
  · exact getD_replicate_zero Wd k
  · rfl

/-- Mapping a function over every cell preserves rectangularity. -/
theorem rect_map_map {g : Grid} {H Wd : Nat} (f : ℚ → ℚ) (hr : RectGrid g H Wd) :
    RectGrid (g.map (fun row => row.map f)) H Wd := by
  refine ⟨by rw [List.length_map]; exact hr.1, ?_⟩
  intro row hrow
  obtain ⟨row0, hrow0, rfl⟩ := List.mem_map.mp hrow
  rw [List.length_map]
  exact hr.2 row0 hrow0

/-- Cell of an element-wise mapped grid. -/
theorem cellD_map_map {g : Grid} {H Wd : Nat} {f : ℚ → ℚ} (hr : RectGrid g H Wd)
    {j k : Nat} (hj : j < H) (hk : k < Wd) :
    cellD (g.map (fun row => row.map f)) j k = f (cellD g j k) := by
  unfold cellD
  have hj' : j < g.length := by rw [hr.1]; omega
  have h1 : (g.map (fun row => row.map f)).getD j [] = (g.getD j []).map f := by
    rw [List.getD_eq_getElem?_getD, List.getElem?_map, List.getElem?_eq_getElem hj',
      List.getD_eq_getElem?_getD, List.getElem?_eq_getElem hj']
    rfl
  have hk' : k < (g.getD j []).length := by rw [rect_row_len hr hj]; omega
  rw [h1, List.getD_eq_getElem?_getD (List.map f (g.getD j [])) k 0, List.getElem?_map,
    List.getElem?_eq_getElem hk', List.getD_eq_getElem?_getD (g.getD j []) k 0,
    List.getElem?_eq_getElem hk']
  rfl

/-- A valid kernel placement index stays in the padded buffer. -/
theorem placement_le {a kern stride n : Nat} (hk : kern ≤ n) (ha : a < (n - kern) / stride + 1) :
    a * stride + kern ≤ n := by
  have h1 : a ≤ (n - kern) / stride := by omega
  have h2 : a * stride ≤ (n - kern) / stride * stride := Nat.mul_le_mul_right stride h1
  have h3 : (n - kern) / stride * stride ≤ n - kern := Nat.div_mul_le_self _ _
  omega


/-! ### Claim C4 -/

/-- C4: with a padded working buffer at least `kernel` wide and tall,
`conv_forward` computes, at every valid kernel placement `(j, k)` at the
configured stride,
`weighted[j][k] = bias * kernel² + Σ_{r,c} data[j*stride+r][k*stride+c] * weight[r][c]`
— the scalar bias accumulated once per kernel element, `kernel²` times per
output cell, not once per output cell — and returns the element-wise
activation of this weighted grid, caching it as `outputs`. The working buffer
is the raw input for Valid padding and the external padder's result for Same
padding. -/
theorem conv_forward_computes_sliding_kernel
    (padFn : Grid → Grid) (l : Layer) (p : ConvParams) (inputs : Grid) (h wd : Nat)
    (hp : l.conv_params = some p)
    (hdata : RectGrid (if p.padding_type = PaddingType.Valid then inputs else padFn inputs) h wd)
    (hW : RectGrid p.weights p.kernel p.kernel)
    (hkern : 1 ≤ p.kernel) (hstride : 1 ≤ p.stride)
    (hkh : p.kernel ≤ h) (hkw : p.kernel ≤ wd) :
    ∃ l' out, Layer.conv_forward padFn l inputs = some (l', out) ∧
      RectGrid out ((h - p.kernel) / p.stride + 1) ((wd - p.kernel) / p.stride + 1) ∧
      (∀ j k, j < (h - p.kernel) / p.stride + 1 → k < (wd - p.kernel) / p.stride + 1 →
        cellD out j k = l.activation.function (
          ((p.kernel * p.kernel : Nat) : ℚ) * p.bias +
          ((List.range p.kernel).map (fun r => ((List.range p.kernel).map (fun c =>
            cellD (if p.padding_type = PaddingType.Valid then inputs else padFn inputs)
              (j * p.stride + r) (k * p.stride + c) * cellD p.weights r c)).sum)).sum)) ∧
      ∃ p', l'.conv_params = some p' ∧ p'.outputs = out ∧ p'.inputs = inputs ∧
        p'.data = (if p.padding_type = PaddingType.Valid then inputs else padFn inputs) := by
  obtain ⟨kern, pt, str, W, bias, pin, pdata, pout⟩ := p
  simp only at hdata hW hkern hstride hkh hkw ⊢
  unfold Layer.conv_forward
  rw [hp]
  simp only [Option.bind_eq_bind, Option.some_bind, ConvParams.add_padding,
    ConvParams.get_output_dims]
  cases pt with
  | Valid =>
    simp only [if_true] at hdata ⊢
    rw [hdata.1, rect_headD_len hdata (by omega), if_neg (by omega : ¬ wd < kern),
      if_neg (by omega : ¬ h < kern)]
    simp only [List.getD_cons_zero, List.getD_cons_succ, List.length_replicate]
    obtain ⟨weighted, hrun, hrect, hcells⟩ := convRowsGo_spec (b := bias) hdata hW hkern hstride
      (List.range ((h - kern) / str + 1))
      (List.replicate ((h - kern) / str + 1) (List.replicate ((wd - kern) / str + 1) (0 : ℚ)))
      (rect_replicate _ _)
      (List.nodup_range _)
      (by
        intro j hj
        rw [List.mem_range] at hj
        exact ⟨hj, placement_le hkh hj⟩)
      (by
        intro k hk
        exact placement_le hkw hk)
    rw [hrun]
    simp only [Option.some_bind]
    refine ⟨_, _, rfl, rect_map_map _ hrect, ?_, ⟨_, rfl, rfl, rfl, rfl⟩⟩
    intro j k hj hk
    rw [cellD_map_map hrect hj hk, hcells j k,
      if_pos ⟨by rw [List.mem_range]; exact hj, hk⟩, cellD_replicate_zero]
    congr 1
    ring
  | Same =>
    simp only [if_neg (show ¬ (PaddingType.Same = PaddingType.Valid) by decide)] at hdata ⊢
    rw [hdata.1, rect_headD_len hdata (by omega), if_neg (by omega : ¬ wd < kern),
      if_neg (by omega : ¬ h < kern)]
    simp only [List.getD_cons_zero, List.getD_cons_succ, List.length_replicate]
    obtain ⟨weighted, hrun, hrect, hcells⟩ := convRowsGo_spec (b := bias) hdata hW hkern hstride
      (List.range ((h - kern) / str + 1))
      (List.replicate ((h - kern) / str + 1) (List.replicate ((wd - kern) / str + 1) (0 : ℚ)))
      (rect_replicate _ _)
      (List.nodup_range _)
      (by
        intro j hj
        rw [List.mem_range] at hj
        exact ⟨hj, placement_le hkh hj⟩)
      (by
        intro k hk
        exact placement_le hkw hk)
    rw [hrun]
    simp only [Option.some_bind]
    refine ⟨_, _, rfl, rect_map_map _ hrect, ?_, ⟨_, rfl, rfl, rfl, rfl⟩⟩
    intro j k hj hk
    rw [cellD_map_map hrect hj hk, hcells j k,
      if_pos ⟨by rw [List.mem_range]; exact hj, hk⟩, cellD_replicate_zero]
    congr 1
    ring

/-- Concrete convolutional parameters: 2×2 identity-like kernel, stride 1,
Valid padding, bias 1. -/
def cvP : ConvParams :=
  { kernel := 2, padding_type := PaddingType.Valid, stride := 1,
    weights := [[1, 0], [0, 1]], bias := 1, inputs := [], data := [], outputs := [] }

/-- Concrete convolutional layer wrapping `cvP`. -/
def convFix : Layer :=
  { activation := idActivation, layer_type := LayerType.Convolutional,
    dense_params := none, conv_params := some cvP }

/-- Witness for C4 at the concrete layer `convFix` on a 3×3 image. -/
theorem conv_forward_computes_sliding_kernel_witness :
    ∃ l' out, Layer.conv_forward id convFix [[1, 2, 3], [4, 5, 6], [7, 8, 9]] = some (l', out) ∧
      RectGrid out ((3 - cvP.kernel) / cvP.stride + 1) ((3 - cvP.kernel) / cvP.stride + 1) ∧
      (∀ j k, j < (3 - cvP.kernel) / cvP.stride + 1 → k < (3 - cvP.kernel) / cvP.stride + 1 →
        cellD out j k = convFix.activation.function (
          ((cvP.kernel * cvP.kernel : Nat) : ℚ) * cvP.bias +
          ((List.range cvP.kernel).map (fun r => ((List.range cvP.kernel).map (fun c =>
            cellD (if cvP.padding_type = PaddingType.Valid
                then [[1, 2, 3], [4, 5, 6], [7, 8, 9]]
                else id [[1, 2, 3], [4, 5, 6], [7, 8, 9]])
              (j * cvP.stride + r) (k * cvP.stride + c) * cellD cvP.weights r c)).sum)).sum)) ∧
      ∃ p', l'.conv_params = some p' ∧ p'.outputs = out ∧
        p'.inputs = [[1, 2, 3], [4, 5, 6], [7, 8, 9]] ∧
        p'.data = (if cvP.padding_type = PaddingType.Valid
            then [[1, 2, 3], [4, 5, 6], [7, 8, 9]]
            else id [[1, 2, 3], [4, 5, 6], [7, 8, 9]]) :=
  conv_forward_computes_sliding_kernel id convFix cvP [[1, 2, 3], [4, 5, 6], [7, 8, 9]] 3 3
    rfl (by decide) (by decide) (by decide) (by decide) (by decide) (by decide)

/-! ### The padding helper -/

/-- Characterization of the inner copy loop of `add_padding_matrix`: each
listed source column `j` writes `row[j]` into cell `(ipos, j + off)`. -/
theorem pad_inner_spec (ipos off : Nat) (row : List ℚ) :
    ∀ (ks : List Nat) (g : Grid) {H Wd : Nat}, RectGrid g H Wd → ks.Nodup →
      ipos < H → (∀ j ∈ ks, j < row.length ∧ j + off < Wd) →
      ∃ g', optFoldl (fun g2 j => do
          let v ← row[j]?
          pure (setCell g2 ipos (j + off) v)) g ks = some g' ∧
        RectGrid g' H Wd ∧
        ∀ x y, cellD g' x y = if x = ipos ∧ ∃ j ∈ ks, y = j + off
          then row.getD (y - off) 0 else cellD g x y := by
  intro ks
  induction ks with
  | nil =>
    intro g H Wd hg hnodup hipos hks
    refine ⟨g, rfl, hg, ?_⟩
    intro x y
    simp
  | cons j ks ih =>
    intro g H Wd hg hnodup hipos hks
    have hj := hks j (by simp)
    have hrowj : row[j]? = some (row.getD j 0) := getElem?_eq_some_getD 0 hj.1
    have hgi : ipos < g.length := by rw [hg.1]; omega
    have hgj : j + off < (g.getD ipos []).length := by rw [rect_row_len hg hipos]; omega
    have hset : RectGrid (setCell g ipos (j + off) (row.getD j 0)) H Wd := by
      apply rect_of_getD
      · rw [length_setCell, hg.1]
      · intro x hx
        rw [rowlen_setCell]
        exact rect_row_len hg hx
    obtain ⟨g', hrun, hrect, hcells⟩ := ih _ hset (List.nodup_cons.mp hnodup).2 hipos
      (fun j2 hj2 => hks j2 (by simp [hj2]))
    have hjnotin : j ∉ ks := (List.nodup_cons.mp hnodup).1
    refine ⟨g', ?_, hrect, ?_⟩
    · simp only [optFoldl, hrowj, Option.bind_eq_bind, Option.some_bind]
      exact hrun
    · intro x y
      rw [hcells x y]
      have hsetcells := cellD_setCell (row.getD j 0) hgi hgj
      by_cases hc1 : x = ipos ∧ ∃ j2 ∈ ks, y = j2 + off
      · obtain ⟨hx, j2, hj2mem, hy⟩ := hc1
        rw [if_pos ⟨hx, j2, hj2mem, hy⟩, if_pos ⟨hx, j2, by simp [hj2mem], hy⟩]
      · rw [if_neg hc1, hsetcells x y]
        by_cases hc2 : x = ipos ∧ y = j + off
        · obtain ⟨hx, hy⟩ := hc2
          rw [if_pos ⟨hx, hy⟩, if_pos ⟨hx, j, by simp, hy⟩, hy]
          simp
        · rw [if_neg hc2, if_neg (by
            rintro ⟨hx, j2, hj2mem, hy⟩
            rcases List.mem_cons.mp hj2mem with rfl | hj2ks
            · exact hc2 ⟨hx, hy⟩
            · exact hc1 ⟨hx, j2, hj2ks, hy⟩)]

/-- Characterization of the row loop of `add_padding_matrix`: each listed
source row `i` is copied, shifted by the padding amount in both directions. -/
theorem pad_outer_spec {matrix : Grid} {hM wM a : Nat} (hrect : RectGrid matrix hM wM) :
    ∀ (is : List Nat) (g : Grid), RectGrid g (hM + 2 * a) (wM + 2 * a) → is.Nodup →
      (∀ i ∈ is, i < hM) →
      ∃ g', optFoldl (fun g i => do
          let row ← matrix[i]?
          optFoldl (fun g2 j => do
              let v ← row[j]?
              pure (setCell g2 (i + a) (j + a) v)) g (List.range wM)) g is = some g' ∧
        RectGrid g' (hM + 2 * a) (wM + 2 * a) ∧
        ∀ x y, cellD g' x y = if (∃ i ∈ is, x = i + a) ∧ a ≤ y ∧ y < wM + a
          then cellD matrix (x - a) (y - a) else cellD g x y := by
  intro is
  induction is with
  | nil =>
    intro g hg hnodup his
    refine ⟨g, rfl, hg, ?_⟩
    intro x y
    simp
  | cons i is ih =>
    intro g hg hnodup his
    have hi := his i (by simp)
    have hrowi : matrix[i]? = some (matrix.getD i []) :=
      getElem?_eq_some_getD [] (by rw [hrect.1]; omega)
    have hrowilen : (matrix.getD i []).length = wM := rect_row_len hrect hi
    obtain ⟨g1, hrun1, hrect1, hcells1⟩ := pad_inner_spec (i + a) a (matrix.getD i [])
      (List.range wM) g hg (List.nodup_range _) (by omega)
      (by
        intro j hjmem
        rw [List.mem_range] at hjmem
        exact ⟨by omega, by omega⟩)
    obtain ⟨g', hrun, hrect', hcells⟩ := ih g1 hrect1 (List.nodup_cons.mp hnodup).2
      (fun i2 hi2 => his i2 (by simp [hi2]))
    have hinotin : i ∉ is := (List.nodup_cons.mp hnodup).1
    refine ⟨g', ?_, hrect', ?_⟩
    · simp only [Option.bind_eq_bind] at hrun1 hrun
      simp only [optFoldl, hrowi, Option.bind_eq_bind, Option.some_bind]
      rw [hrun1]
      simp only [Option.some_bind]
      exact hrun
    · intro x y
      rw [hcells x y]
      have hxiff : (∃ j ∈ List.range wM, y = j + a) ↔ (a ≤ y ∧ y < wM + a) := by
        constructor
        · rintro ⟨j, hjmem, rfl⟩
          rw [List.mem_range] at hjmem
          omega
        · rintro ⟨h1, h2⟩
          exact ⟨y - a, by rw [List.mem_range]; omega, by omega⟩
      by_cases hc1 : (∃ i2 ∈ is, x = i2 + a) ∧ a ≤ y ∧ y < wM + a
      · obtain ⟨⟨i2, hi2mem, hx⟩, hy1, hy2⟩ := hc1
        rw [if_pos ⟨⟨i2, hi2mem, hx⟩, hy1, hy2⟩, if_pos ⟨⟨i2, by simp [hi2mem], hx⟩, hy1, hy2⟩]
      · rw [if_neg hc1, hcells1 x y]
        by_cases hc2 : x = i + a ∧ a ≤ y ∧ y < wM + a
        · obtain ⟨hx, hy1, hy2⟩ := hc2
          rw [if_pos ⟨hx, hxiff.mpr ⟨hy1, hy2⟩⟩, if_pos ⟨⟨i, by simp, hx⟩, hy1, hy2⟩]
          unfold cellD
          rw [hx]
          simp
        · rw [if_neg (by
            rintro ⟨hx, hymem⟩
            exact hc2 ⟨hx, hxiff.mp hymem⟩),
            if_neg (by
            rintro ⟨⟨i2, hi2mem, hx⟩, hy1, hy2⟩
            rcases List.mem_cons.mp hi2mem with rfl | hi2is
            · exact hc2 ⟨hx, hy1, hy2⟩
            · exact hc1 ⟨⟨i2, hi2is, hx⟩, hy1, hy2⟩)]

/-- Shared characterization of `Layer::add_padding_matrix` on a nonempty
rectangular matrix: the call succeeds and returns the symmetrically
zero-padded grid. -/
theorem add_padding_matrix_spec (a : Nat) {matrix : Grid} {hM wM : Nat}
    (hrect : RectGrid matrix hM wM) (hne : 0 < hM) :
    ∃ g, Layer.add_padding_matrix a matrix = some g ∧
      RectGrid g (hM + 2 * a) (wM + 2 * a) ∧
      (∀ i j, i < hM → j < wM → cellD g (i + a) (j + a) = cellD matrix i j) ∧
      (∀ x y, ¬ (a ≤ x ∧ x < hM + a ∧ a ≤ y ∧ y < wM + a) → cellD g x y = 0) := by
  have hrow0 : matrix[(0 : Nat)]? = some (matrix.getD 0 []) :=
    getElem?_eq_some_getD [] (by rw [hrect.1]; omega)
  have hrow0len : (matrix.getD 0 []).length = wM := rect_row_len hrect hne
  obtain ⟨g', hrun, hrect', hcells⟩ := pad_outer_spec hrect (List.range matrix.length)
    (List.replicate (matrix.length + 2 * a) (List.replicate (wM + 2 * a) (0 : ℚ)))
    (by rw [hrect.1]; exact rect_replicate _ _)
    (List.nodup_range _)
    (by
      intro i hi
      rw [List.mem_range, hrect.1] at hi
      exact hi)
  refine ⟨g', ?_, hrect', ?_, ?_⟩
  · unfold Layer.add_padding_matrix
    simp only [Option.bind_eq_bind] at hrun
    simp only [hrow0, Option.bind_eq_bind, Option.some_bind]
    rw [hrow0len]
    exact hrun
  · intro i j hi hj
    rw [hcells (i + a) (j + a),
      if_pos ⟨⟨i, by rw [List.mem_range, hrect.1]; omega, rfl⟩, by omega, by omega⟩]
    simp
  · intro x y hout
    rw [hcells x y, if_neg (by
      rintro ⟨⟨i, himem, rfl⟩, hy1, hy2⟩
      rw [List.mem_range, hrect.1] at himem
      exact hout ⟨by omega, by omega, by omega, by omega⟩)]
    exact cellD_replicate_zero _ _ _ _

/-! ### Claim C7 -/

/-- C7: for every non-empty rectangular `h × w` matrix and padding amount `a`,
`add_padding_matrix` returns a new `(h + 2a) × (w + 2a)` grid whose cell
`(i + a, j + a)` equals the original cell `(i, j)` and whose every other cell
is zero. The input matrix is passed by shared reference in Rust and is a pure
argument here, so it is not modified. -/
theorem add_padding_matrix_pads_symmetrically
    (a : Nat) (matrix : Grid) (hM wM : Nat)
    (hrect : RectGrid matrix hM wM) (hne : 0 < hM) :
    ∃ g, Layer.add_padding_matrix a matrix = some g ∧
      RectGrid g (hM + 2 * a) (wM + 2 * a) ∧
      (∀ i j, i < hM → j < wM → cellD g (i + a) (j + a) = cellD matrix i j) ∧
      (∀ x y, ¬ (a ≤ x ∧ x < hM + a ∧ a ≤ y ∧ y < wM + a) → cellD g x y = 0) :=
  add_padding_matrix_spec a hrect hne

/-- Witness for C7: padding a concrete 2×2 matrix by 1. -/
theorem add_padding_matrix_pads_symmetrically_witness :
    ∃ g, Layer.add_padding_matrix 1 [[1, 2], [3, 4]] = some g ∧
      RectGrid g (2 + 2 * 1) (2 + 2 * 1) ∧
      (∀ i j, i < 2 → j < 2 → cellD g (i + 1) (j + 1) = cellD [[1, 2], [3, 4]] i j) ∧
      (∀ x y, ¬ (1 ≤ x ∧ x < 2 + 1 ∧ 1 ≤ y ∧ y < 2 + 1) → cellD g x y = 0) :=
  add_padding_matrix_pads_symmetrically 1 [[1, 2], [3, 4]] 2 2 (by decide) (by decide)

/-! ### Machinery for the convolutional backward pass -/

/-- A doubly-mapped range grid is rectangular. -/
theorem rect_range_range (f : Nat → Nat → ℚ) (H Wd : Nat) :
    RectGrid ((List.range H).map (fun i => (List.range Wd).map (f i))) H Wd := by
  refine ⟨by simp, ?_⟩
  intro row hrow
  obtain ⟨i, hi, rfl⟩ := List.mem_map.mp hrow
  simp

/-- Cell of a doubly-mapped range grid. -/
theorem cellD_range_range {f : Nat → Nat → ℚ} {H Wd i j : Nat} (hi : i < H) (hj : j < Wd) :
    cellD ((List.range H).map (fun i => (List.range Wd).map (f i))) i j = f i j := by
  unfold cellD
  rw [getD_range_map [] hi, getD_range_map 0 hj]

/-- The delta stage of `conv_backward`: each error cell is multiplied by the
activation derivative of the corresponding cached output cell. -/
theorem conv_delta_eq (d : ℚ → ℚ) {errors outputs : Grid} {dh dw : Nat}
    (herr : RectGrid errors dh dw) (hout : RectGrid outputs dh dw) :
    optMap (fun i => do
        let erow ← errors[i]?
        optMap (fun j => do
            let e ← erow[j]?
            let o ← getCell outputs i j
            pure (e * d o)) (List.range erow.length))
      (List.range errors.length) =
      some ((List.range dh).map (fun i => (List.range dw).map (fun j =>
        cellD errors i j * d (cellD outputs i j)))) := by
  rw [herr.1]
  apply optMap_eq_map
  intro i hi
  rw [List.mem_range] at hi
  have hrow : errors[i]? = some (errors.getD i []) :=
    getElem?_eq_some_getD [] (by rw [herr.1]; omega)
  have hrowlen : (errors.getD i []).length = dw := rect_row_len herr hi
  have hinner : optMap (fun j => do
      let e ← (errors.getD i [])[j]?
      let o ← getCell outputs i j
      pure (e * d o)) (List.range dw) =
      some ((List.range dw).map (fun j => cellD errors i j * d (cellD outputs i j))) := by
    apply optMap_eq_map
    intro j hj
    rw [List.mem_range] at hj
    have he : (errors.getD i [])[j]? = some ((errors.getD i []).getD j 0) :=
      getElem?_eq_some_getD 0 (by omega)
    have ho : getCell outputs i j = some (cellD outputs i j) :=
      getCell_eq (by rw [hout.1]; omega) (by rw [rect_row_len hout hi]; omega)
    simp only [he, ho, Option.bind_eq_bind, Option.some_bind]
    rfl
  simp only [Option.bind_eq_bind] at hinner
  simp only [hrow, Option.bind_eq_bind, Option.some_bind, hrowlen]
  exact hinner

/-- Net effect of the quadruple weight-update loop on one weight cell:
subtracting `lr * delta[k][l]` for every delta cell subtracts `lr` times the
total delta sum. -/
theorem foldl_sub_grid (lr : ℚ) : ∀ (delta : Grid) (wv : ℚ),
    delta.foldl (fun a drow => drow.foldl (fun a2 d2 => a2 - lr * d2) a) wv =
      wv - lr * (delta.map List.sum).sum := by
  intro delta
  induction delta with
  | nil => intro wv; simp
  | cons drow rest ih =>
    intro wv
    rw [List.foldl_cons, foldl_sub_scaled, ih, List.map_cons, List.sum_cons]
    ring

/-- The bias accumulation loop computes the total delta sum. -/
theorem foldl_add_grid : ∀ (delta : Grid) (init : ℚ),
    delta.foldl (fun a drow => drow.foldl (fun a2 d2 => a2 + d2) a) init =
      init + (delta.map List.sum).sum := by
  intro delta
  induction delta with
  | nil => intro init; simp
  | cons drow rest ih =>
    intro init
    rw [List.foldl_cons, foldl_add_self, ih, List.map_cons, List.sum_cons]
    ring

/-! ### Claim C5 -/

/-- C5: whenever `conv_backward` returns after a matching forward pass, every
kernel weight cell has been decremented by the same amount — the learning rate
times the sum of all cells of `delta_output`, where
`delta_output[j][k] = errors[j][k] * derivative(outputs[j][k])`. The per-cell
weight gradients accumulated from the padded input do not appear in the
update: the new cell value depends on the old cell value and the aggregate
delta sum only. -/
theorem conv_backward_updates_all_weights_by_delta_sum
    (l : Layer) (p : ConvParams) (errors : Grid) (lr : ℚ) (dh dw : Nat)
    (hp : l.conv_params = some p)
    (herr : RectGrid errors dh dw)
    (hout : RectGrid p.outputs dh dw)
    (hW : RectGrid p.weights p.kernel p.kernel) :
    ∀ l' nd, l.conv_backward errors lr = some (l', nd) →
      ∃ p', l'.conv_params = some p' ∧
        RectGrid p'.weights p.kernel p.kernel ∧
        ∀ r c, r < p.kernel → c < p.kernel →
          cellD p'.weights r c = cellD p.weights r c - lr *
            ((List.range dh).map (fun i => ((List.range dw).map (fun j =>
              cellD errors i j * l.activation.derivative (cellD p.outputs i j))).sum)).sum := by
  intro l' nd h
  unfold Layer.conv_backward at h
  rw [hp] at h
  have hdelta := conv_delta_eq l.activation.derivative herr hout
  simp only [Option.bind_eq_bind] at hdelta
  simp only [Option.bind_eq_bind, Option.some_bind] at h
  rw [hdelta] at h
  simp only [Option.some_bind, Option.bind_eq_some] at h
  obtain ⟨wg, hwg, dr, hdr, pg, hpg, ndv, hnd, h⟩ := h
  obtain ⟨h1, h2⟩ := (Prod.mk.injEq _ _ _ _).mp (Option.some.inj h)
  subst h1
  subst h2
  refine ⟨_, rfl, ?_, ?_⟩
  · exact rect_map_map _ hW
  · intro r c hr hc
    rw [cellD_map_map hW hr hc, foldl_sub_grid, List.map_map]
    congr 3

/-- Concrete convolutional parameters as left by `conv_forward` of `convFix`
on the 3×3 image `[[1,2,3],[4,5,6],[7,8,9]]`. -/
def cvPB : ConvParams :=
  { kernel := 2, padding_type := PaddingType.Valid, stride := 1,
    weights := [[1, 0], [0, 1]], bias := 1,
    inputs := [[1, 2, 3], [4, 5, 6], [7, 8, 9]],
    data := [[1, 2, 3], [4, 5, 6], [7, 8, 9]],
    outputs := [[10, 12], [16, 18]] }

/-- Concrete convolutional layer wrapping `cvPB`. -/
def convFixB : Layer :=
  { activation := idActivation, layer_type := LayerType.Convolutional,
    dense_params := none, conv_params := some cvPB }

/-- The layer returned by `conv_backward` of `convFixB` with errors
`[[1,0],[0,0]]` and learning rate 1. -/
def convFixB' : Layer :=
  { activation := idActivation, layer_type := LayerType.Convolutional,
    dense_params := none,
    conv_params := some { cvPB with weights := [[0, -1], [-1, 0]], bias := 3/4 } }

/-- Witness for C5 at the concrete layer `convFixB`. -/
theorem conv_backward_updates_all_weights_by_delta_sum_witness :
    ∃ p', convFixB'.conv_params = some p' ∧
      RectGrid p'.weights cvPB.kernel cvPB.kernel ∧
      ∀ r c, r < cvPB.kernel → c < cvPB.kernel →
        cellD p'.weights r c = cellD cvPB.weights r c - 1 *
          ((List.range 2).map (fun i => ((List.range 2).map (fun j =>
            cellD [[1, 0], [0, 0]] i j *
              convFixB.activation.derivative (cellD cvPB.outputs i j))).sum)).sum :=
  conv_backward_updates_all_weights_by_delta_sum convFixB cvPB [[1, 0], [0, 0]] 1 2 2
    rfl (by decide) (by decide) (by decide)
    convFixB' [[0, -1, 0], [-1, 0, 0], [0, 0, 0]] (by with_unfolding_all rfl)
/-! ### Claim C6 -/

/-- Concrete convolutional parameters with stride 2 (kernel 1, Valid). -/
def cvP2 : ConvParams :=
  { kernel := 1, padding_type := PaddingType.Valid, stride := 2,
    weights := [[1]], bias := 0, inputs := [], data := [], outputs := [] }

/-- Concrete stride-2 convolutional layer wrapping `cvP2`. -/
def convFix2 : Layer :=
  { activation := idActivation, layer_type := LayerType.Convolutional,
    dense_params := none, conv_params := some cvP2 }

/-- Counterexample to C6 as stated: after a matching (successful) forward pass
on a stride-2 layer, `conv_backward` does not return the described slide grid —
it returns nothing at all, because the upstream-gradient loop's break check
compares `j + kernel` instead of `j * stride + kernel` against the padded
grid size and the scaled read then indexes out of bounds (a panic in Rust). -/
theorem conv_backward_stride2_panics :
    (Layer.conv_forward id convFix2 [[1, 2, 3], [4, 5, 6], [7, 8, 9]]).isSome = true ∧
    ((Layer.conv_forward id convFix2 [[1, 2, 3], [4, 5, 6], [7, 8, 9]]).bind
      (fun r => r.1.conv_backward [[1, 1], [1, 1]] 1)) = none := by
  constructor
  · with_unfolding_all rfl
  · with_unfolding_all rfl

/-- A successful fallible lookup is in bounds and agrees with the defaulted
lookup. -/
theorem getElem?_some_imp {α} {l : List α} {i : Nat} {v : α} (d : α)
    (h : l[i]? = some v) : i < l.length ∧ v = l.getD i d := by
  have hl : i < l.length := by
    by_contra hc
    rw [List.getElem?_eq_none (by omega)] at h
    exact Option.noConfusion h
  refine ⟨hl, ?_⟩
  rw [List.getD_eq_getElem?_getD, h]
  rfl

/-- A successful `getCell` is in bounds and returns the `cellD` value. -/
theorem getCell_some {g : Grid} {i j : Nat} {v : ℚ} (h : getCell g i j = some v) :
    i < g.length ∧ j < (g.getD i []).length ∧ v = cellD g i j := by
  unfold getCell at h
  simp only [Option.bind_eq_bind] at h
  cases hrow : g[i]? with
  | none => rw [hrow] at h; exact absurd h (by simp)
  | some row =>
    rw [hrow, Option.some_bind] at h
    obtain ⟨hi, hrowD⟩ := getElem?_some_imp [] hrow
    obtain ⟨hj, hv⟩ := getElem?_some_imp 0 h
    subst hrowD
    exact ⟨hi, hj, hv⟩

/-- If an `optFoldl` returns and every step's result is determined by a clean
step function, the result is the plain fold of that function. -/
theorem optFoldl_some_eq {α β} {f : α → β → Option α} {g : α → β → α} :
    ∀ {L : List β} {a r : α},
      (∀ a' b, b ∈ L → ∀ r', f a' b = some r' → r' = g a' b) →
      optFoldl f a L = some r → r = L.foldl g a := by
  intro L
  induction L with
  | nil =>
    intro a r _ h
    simp only [optFoldl] at h
    rw [List.foldl_nil]
    exact (Option.some.inj h).symm
  | cons b L ih =>
    intro a r hclean h
    simp only [optFoldl, Option.bind_eq_bind] at h
    cases hf : f a b with
    | none => rw [hf] at h; exact absurd h (by simp)
    | some a2 =>
      rw [hf, Option.some_bind] at h
      have ha2 : a2 = g a b := hclean a b (by simp) a2 hf
      rw [List.foldl_cons, ← ha2]
      exact ih (fun a' c hc => hclean a' c (by simp [hc])) h

/-- If an `optFoldl` returns, every listed element's step succeeded from some
accumulator. -/
theorem optFoldl_some_mem {α β} {f : α → β → Option α} :
    ∀ {L : List β} {a r : α}, optFoldl f a L = some r →
      ∀ b ∈ L, ∃ a' r', f a' b = some r' := by
  intro L
  induction L with
  | nil => intro a r _ b hb; exact absurd hb (by simp)
  | cons b L ih =>
    intro a r h c hc
    simp only [optFoldl, Option.bind_eq_bind] at h
    cases hf : f a b with
    | none => rw [hf] at h; exact absurd h (by simp)
    | some a2 =>
      rw [hf, Option.some_bind] at h
      rcases List.mem_cons.mp hc with hcb | hcL
      · subst hcb; exact ⟨a, a2, hf⟩
      · exact ih h c hcL

/-- If an upstream-gradient cell computation returns, its value is the
un-rotated kernel sum over the padded grid at the configured stride. -/
theorem ndCell_some_eq {kern s : Nat} {W pg : Grid} {j k : Nat} {v : ℚ}
    (h : ndCell kern s W pg j k = some v) :
    v = ((List.range kern).map (fun r => ((List.range kern).map (fun c =>
      cellD W r c * cellD pg (j * s + r) (k * s + c))).sum)).sum := by
  unfold ndCell at h
  have hclean : ∀ (a' : ℚ) (r : Nat), r ∈ List.range kern → ∀ r',
      optFoldl (fun acc2 c => do
          let wv ← getCell W r c
          let pv ← getCell pg (j * s + r) (k * s + c)
          pure (acc2 + wv * pv)) a' (List.range kern) = some r' →
      r' = a' + ((List.range kern).map (fun c =>
        cellD W r c * cellD pg (j * s + r) (k * s + c))).sum := by
    intro a' r hr r' hrun
    have hstep : ∀ (a2 : ℚ) (c : Nat), c ∈ List.range kern → ∀ v2,
        (do
          let wv ← getCell W r c
          let pv ← getCell pg (j * s + r) (k * s + c)
          pure (a2 + wv * pv) : Option ℚ) = some v2 →
        v2 = a2 + cellD W r c * cellD pg (j * s + r) (k * s + c) := by
      intro a2 c _ v2 hv2
      simp only [Option.bind_eq_bind, Option.pure_def] at hv2
      cases hw : getCell W r c with
      | none => rw [hw] at hv2; exact absurd hv2 (by simp)
      | some wv =>
        rw [hw, Option.some_bind] at hv2
        cases hpv : getCell pg (j * s + r) (k * s + c) with
        | none => rw [hpv] at hv2; exact absurd hv2 (by simp)
        | some pv =>
          rw [hpv, Option.some_bind] at hv2
          obtain ⟨_, _, hwv⟩ := getCell_some hw
          obtain ⟨_, _, hpvv⟩ := getCell_some hpv
          rw [← Option.some.inj hv2, hwv, hpvv]
    rw [optFoldl_some_eq (g := fun a2 c =>
      a2 + cellD W r c * cellD pg (j * s + r) (k * s + c)) hstep hrun,
      foldl_add_map (fun c => cellD W r c * cellD pg (j * s + r) (k * s + c))]
  rw [optFoldl_some_eq (g := fun a' r => a' + ((List.range kern).map (fun c =>
      cellD W r c * cellD pg (j * s + r) (k * s + c))).sum) hclean h,
    foldl_add_map (fun r => ((List.range kern).map (fun c =>
      cellD W r c * cellD pg (j * s + r) (k * s + c))).sum), zero_add]

/-- If an upstream-gradient cell computation returns, every kernel-offset read
of the padded grid succeeded. -/
theorem ndCell_some_reads {kern s : Nat} {W pg : Grid} {j k : Nat} {v : ℚ}
    (h : ndCell kern s W pg j k = some v) :
    ∀ r, r < kern → ∀ c, c < kern →
      ∃ pv, getCell pg (j * s + r) (k * s + c) = some pv := by
  unfold ndCell at h
  intro r hr c hc
  obtain ⟨a1, r1, hinner⟩ := optFoldl_some_mem h r (List.mem_range.mpr hr)
  obtain ⟨a2, v2, hstep⟩ := optFoldl_some_mem hinner c (List.mem_range.mpr hc)
  simp only [Option.bind_eq_bind] at hstep
  cases hw : getCell W r c with
  | none => rw [hw] at hstep; exact absurd hstep (by simp)
  | some wv =>
    rw [hw, Option.some_bind] at hstep
    cases hpv : getCell pg (j * s + r) (k * s + c) with
    | none => rw [hpv] at hstep; exact absurd hstep (by simp)
    | some pv => exact ⟨pv, rfl⟩

/-- If the upstream-gradient column loop returns over a leading segment of
columns whose break flag stays off, each of those cells' computations
succeeded, and the loop continues on the rest with the configured-stride
kernel sums appended. -/
theorem ndColsGo_some_seg {kern s : Nat} {W pg : Grid} {j : Nat} {ph pw : Nat}
    (hpg : RectGrid pg ph pw) (hph : 0 < ph) :
    ∀ (ks1 ks2 : List Nat) (row row' : List ℚ), (∀ k ∈ ks1, k + kern ≤ pw) →
      ndColsGo kern s W pg j (ks1 ++ ks2) row = some row' →
      (∀ k ∈ ks1, ∃ v, ndCell kern s W pg j k = some v) ∧
      ndColsGo kern s W pg j ks2 (row ++ ks1.map (fun k =>
        ((List.range kern).map (fun r => ((List.range kern).map (fun c =>
          cellD W r c * cellD pg (j * s + r) (k * s + c))).sum)).sum)) = some row' := by
  intro ks1
  induction ks1 with
  | nil =>
    intro ks2 row row' _ h
    refine ⟨by simp, ?_⟩
    simpa using h
  | cons k ks1 ih =>
    intro ks2 row row' hks h
    have hk := hks k (by simp)
    have hrow0 : pg[(0 : Nat)]? = some (pg.getD 0 []) :=
      getElem?_eq_some_getD [] (by rw [hpg.1]; omega)
    have hrow0len : (pg.getD 0 []).length = pw := rect_row_len hpg hph
    have hnobreak : ¬ (k + kern > (pg.getD 0 []).length) := by
      rw [hrow0len]
      omega
    simp only [List.cons_append, ndColsGo, hrow0, Option.bind_eq_bind, Option.some_bind,
      if_neg hnobreak] at h
    cases hcell : ndCell kern s W pg j k with
    | none => rw [hcell] at h; exact absurd h (by simp)
    | some v =>
      rw [hcell, Option.some_bind] at h
      obtain ⟨hsucc, hrest⟩ := ih ks2 (row ++ [v]) row'
        (fun k2 hk2 => hks k2 (by simp [hk2])) h
      have hveq := ndCell_some_eq hcell
      subst hveq
      constructor
      · intro k2 hk2
        rcases List.mem_cons.mp hk2 with hkb | hkL
        · subst hkb; exact ⟨_, hcell⟩
        · exact hsucc k2 hkL
      · rw [List.map_cons]
        simpa using hrest

/-- The upstream-gradient column loop stops and returns the row built so far
at the first column whose (unscaled) break flag fires. -/
theorem ndColsGo_some_stop {kern s : Nat} {W pg : Grid} {j : Nat} {ph pw : Nat}
    (hpg : RectGrid pg ph pw) (hph : 0 < ph)
    {k0 : Nat} (hk0 : k0 + kern > pw) (ks' : List Nat) (row : List ℚ) :
    ndColsGo kern s W pg j (k0 :: ks') row = some row := by
  have hrow0 : pg[(0 : Nat)]? = some (pg.getD 0 []) :=
    getElem?_eq_some_getD [] (by rw [hpg.1]; omega)
  have hrow0len : (pg.getD 0 []).length = pw := rect_row_len hpg hph
  simp only [ndColsGo, hrow0, Option.bind_eq_bind, Option.some_bind,
    if_pos (by rw [hrow0len]; omega : k0 + kern > (pg.getD 0 []).length)]
  rfl

/-- If the upstream-gradient row loop returns over a leading segment of rows
whose break flag stays off, every cell of every such row succeeded, and the
loop continues on the rest with the rows of configured-stride kernel sums
appended. -/
theorem ndRowsGo_some_seg {kern s : Nat} {W pg : Grid} {ph pw : Nat}
    (hpg : RectGrid pg ph pw) (hkern : 1 ≤ kern) (hkw : kern ≤ pw) :
    ∀ (js1 js2 : List Nat) (acc nd : Grid), (∀ j ∈ js1, j + kern ≤ ph) →
      ndRowsGo kern s W pg (js1 ++ js2) acc = some nd →
      (∀ j ∈ js1, ∀ k, k + kern ≤ pw → ∃ v, ndCell kern s W pg j k = some v) ∧
      ndRowsGo kern s W pg js2 (acc ++ js1.map (fun j =>
        (List.range (pw - kern + 1)).map (fun k =>
          ((List.range kern).map (fun r => ((List.range kern).map (fun c =>
            cellD W r c * cellD pg (j * s + r) (k * s + c))).sum)).sum))) = some nd := by
  intro js1
  induction js1 with
  | nil =>
    intro js2 acc nd _ h
    refine ⟨by simp, ?_⟩
    simpa using h
  | cons j js1 ih =>
    intro js2 acc nd hjs h
    have hj := hjs j (by simp)
    have hph : 0 < ph := by omega
    have hnobreak : ¬ (j + kern > pg.length) := by
      rw [hpg.1]
      omega
    have hrowj : pg[j]? = some (pg.getD j []) :=
      getElem?_eq_some_getD [] (by rw [hpg.1]; omega)
    have hrowjlen : (pg.getD j []).length = pw := rect_row_len hpg (by omega)
    simp only [List.cons_append, ndRowsGo, if_neg hnobreak, hrowj, Option.bind_eq_bind,
      Option.some_bind, hrowjlen] at h
    cases hrun : ndColsGo kern s W pg j (List.range pw) [] with
    | none => rw [hrun] at h; exact absurd h (by simp)
    | some rowv =>
      rw [hrun, Option.some_bind] at h
      have hsplit : List.range pw =
          List.range (pw - kern + 1) ++ (List.range (kern - 1)).map ((pw - kern + 1) + ·) := by
        rw [← List.range_add]
        congr 1
        omega
      rw [hsplit] at hrun
      obtain ⟨hcells, hrest⟩ := ndColsGo_some_seg hpg hph _ _ _ _
        (by
          intro k2 hk2
          rw [List.mem_range] at hk2
          omega) hrun
      have hrowv : rowv = (List.range (pw - kern + 1)).map (fun k =>
          ((List.range kern).map (fun r => ((List.range kern).map (fun c =>
            cellD W r c * cellD pg (j * s + r) (k * s + c))).sum)).sum) := by
        rcases hk1 : kern - 1 with _ | n
        · rw [hk1] at hrest
          simp only [List.range_zero, List.map_nil, ndColsGo] at hrest
          simpa using (Option.some.inj hrest).symm
        · rw [hk1, List.range_succ_eq_map, List.map_cons] at hrest
          rw [ndColsGo_some_stop hpg hph (by omega) _ _] at hrest
          simpa using (Option.some.inj hrest).symm
      obtain ⟨hsuccs, hrest2⟩ := ih js2 (acc ++ [rowv]) nd
        (fun j2 hj2 => hjs j2 (by simp [hj2])) h
      constructor
      · intro j2 hj2 k hkk
        rcases List.mem_cons.mp hj2 with hjb | hjL
        · subst hjb
          exact hcells k (by rw [List.mem_range]; omega)
        · exact hsuccs j2 hjL k hkk
      · rw [List.map_cons, ← hrowv]
        simpa using hrest2

/-- The upstream-gradient row loop stops and returns the grid built so far at
the first row whose (unscaled) break flag fires. -/
theorem ndRowsGo_some_stop {kern s : Nat} {W pg : Grid} {ph pw : Nat}
    (hpg : RectGrid pg ph pw)
    {j0 : Nat} (hj0 : j0 + kern > ph) (js' : List Nat) (acc : Grid) :
    ndRowsGo kern s W pg (j0 :: js') acc = some acc := by
  simp only [ndRowsGo, if_pos (by rw [hpg.1]; omega : j0 + kern > pg.length)]

/-- If the complete upstream-gradient pass returns, the result is the
`(ph - kern + 1) × (pw - kern + 1)` grid of configured-stride kernel sums,
and every processed cell's computation (hence every scaled read) succeeded. -/
theorem ndRowsGo_some_run {kern s : Nat} {W pg : Grid} {ph pw : Nat} {nd : Grid}
    (hpg : RectGrid pg ph pw) (hkern : 1 ≤ kern) (hkh : kern ≤ ph) (hkw : kern ≤ pw)
    (h : ndRowsGo kern s W pg (List.range pg.length) [] = some nd) :
    nd = (List.range (ph - kern + 1)).map (fun j =>
        (List.range (pw - kern + 1)).map (fun k =>
          ((List.range kern).map (fun r => ((List.range kern).map (fun c =>
            cellD W r c * cellD pg (j * s + r) (k * s + c))).sum)).sum)) ∧
      ∀ j k, j + kern ≤ ph → k + kern ≤ pw →
        ∃ v, ndCell kern s W pg j k = some v := by
  have hsplit : List.range pg.length =
      List.range (ph - kern + 1) ++ (List.range (kern - 1)).map ((ph - kern + 1) + ·) := by
    rw [← List.range_add, hpg.1]
    congr 1
    omega
  rw [hsplit] at h
  obtain ⟨hsuccs, hrest⟩ := ndRowsGo_some_seg hpg hkern hkw _ _ _ _
    (by
      intro j hj
      rw [List.mem_range] at hj
      omega) h
  constructor
  · rcases hk1 : kern - 1 with _ | n
    · rw [hk1] at hrest
      simp only [List.range_zero, List.map_nil, ndRowsGo] at hrest
      simpa using (Option.some.inj hrest).symm
    · rw [hk1, List.range_succ_eq_map, List.map_cons] at hrest
      rw [ndRowsGo_some_stop hpg (by omega) _ _] at hrest
      simpa using (Option.some.inj hrest).symm
  · intro j k hjk hkk
    exact hsuccs j (by rw [List.mem_range]; omega) k hkk

/-- C6 (amended): whenever `conv_backward` returns a `next_delta` grid after a
matching forward pass, that grid equals the result of zero-padding
`delta_output` by `kernel - 1` on all four sides (via `add_padding_matrix`,
see C7) and sliding the already-updated, un-rotated kernel weights over that
padded grid at the configured stride, each output cell being
`Σ_{r,c} weight[r][c] * padded_delta[j*stride+r][k*stride+c]`; the call is not
guaranteed to return a grid — at stride 2 it can fault, as the counterexample
records. -/
theorem conv_backward_next_delta_full_convolution
    (l : Layer) (p : ConvParams) (errors : Grid) (lr : ℚ) (dh dw : Nat)
    (hp : l.conv_params = some p)
    (hstride : 1 ≤ p.stride) (hkern : 1 ≤ p.kernel)
    (hdh : 1 ≤ dh) (hdw : 1 ≤ dw)
    (herr : RectGrid errors dh dw) (hout : RectGrid p.outputs dh dw) :
    ∀ l' nd, l.conv_backward errors lr = some (l', nd) →
      ∃ p' pg, l'.conv_params = some p' ∧
        Layer.add_padding_matrix (p.kernel - 1)
          ((List.range dh).map (fun i => (List.range dw).map (fun j =>
            cellD errors i j * l.activation.derivative (cellD p.outputs i j)))) = some pg ∧
        RectGrid nd ((dh + 2 * (p.kernel - 1) - p.kernel) / p.stride + 1)
          ((dw + 2 * (p.kernel - 1) - p.kernel) / p.stride + 1) ∧
        ∀ j k, j < (dh + 2 * (p.kernel - 1) - p.kernel) / p.stride + 1 →
            k < (dw + 2 * (p.kernel - 1) - p.kernel) / p.stride + 1 →
          cellD nd j k = ((List.range p.kernel).map (fun r =>
            ((List.range p.kernel).map (fun c =>
              cellD p'.weights r c * cellD pg (j * p.stride + r) (k * p.stride + c))).sum)).sum := by
  intro l' nd hcall
  have hD : RectGrid ((List.range dh).map (fun i => (List.range dw).map (fun j =>
      cellD errors i j * l.activation.derivative (cellD p.outputs i j)))) dh dw :=
    rect_range_range _ dh dw
  obtain ⟨pg, hpgrun, hpgrect, hpgint, hpgzero⟩ :=
    add_padding_matrix_spec (p.kernel - 1) hD (by omega)
  have hdelta := conv_delta_eq l.activation.derivative herr hout
  unfold Layer.conv_backward at hcall
  rw [hp] at hcall
  simp only [Option.bind_eq_bind] at hdelta
  simp only [Option.bind_eq_bind, Option.some_bind] at hcall
  rw [hdelta] at hcall
  simp only [Option.some_bind, Option.bind_eq_some] at hcall
  obtain ⟨wg, hwg, dr, hdr, pg2, hpg2, ndv, hndv, hpure⟩ := hcall
  obtain ⟨h1, h2⟩ := (Prod.mk.injEq _ _ _ _).mp (Option.some.inj hpure)
  subst h1
  subst h2
  have hpg2eq : pg = pg2 := Option.some.inj (hpgrun.symm.trans hpg2)
  subst hpg2eq
  have hph : p.kernel ≤ dh + 2 * (p.kernel - 1) := by omega
  have hpw : p.kernel ≤ dw + 2 * (p.kernel - 1) := by omega
  obtain ⟨hndeq, hsuccs⟩ := ndRowsGo_some_run hpgrect hkern hph hpw hndv
  obtain ⟨cv, hcv⟩ := hsuccs (dh + 2 * (p.kernel - 1) - p.kernel)
    (dw + 2 * (p.kernel - 1) - p.kernel) (by omega) (by omega)
  obtain ⟨pv1, hpv1⟩ := ndCell_some_reads hcv (p.kernel - 1) (by omega) 0 (by omega)
  obtain ⟨pv2, hpv2⟩ := ndCell_some_reads hcv 0 (by omega) (p.kernel - 1) (by omega)
  obtain ⟨hb1, _, _⟩ := getCell_some hpv1
  obtain ⟨hb2row, hb2col, _⟩ := getCell_some hpv2
  rw [hpgrect.1] at hb1 hb2row
  rw [rect_row_len hpgrect hb2row] at hb2col
  have hmul1 : (dh + 2 * (p.kernel - 1) - p.kernel) * 1 ≤
      (dh + 2 * (p.kernel - 1) - p.kernel) * p.stride :=
    Nat.mul_le_mul_left _ hstride
  have hmul2 : (dw + 2 * (p.kernel - 1) - p.kernel) * 1 ≤
      (dw + 2 * (p.kernel - 1) - p.kernel) * p.stride :=
    Nat.mul_le_mul_left _ hstride
  have hdiv1 : (dh + 2 * (p.kernel - 1) - p.kernel) / p.stride =
      dh + 2 * (p.kernel - 1) - p.kernel := by
    by_cases hz : dh + 2 * (p.kernel - 1) - p.kernel = 0
    · rw [hz]
      exact Nat.zero_div _
    · have hs1 : p.stride = 1 :=
        Nat.eq_of_mul_eq_mul_left (Nat.pos_of_ne_zero hz) (by omega)
      rw [hs1, Nat.div_one]
  have hdiv2 : (dw + 2 * (p.kernel - 1) - p.kernel) / p.stride =
      dw + 2 * (p.kernel - 1) - p.kernel := by
    by_cases hz : dw + 2 * (p.kernel - 1) - p.kernel = 0
    · rw [hz]
      exact Nat.zero_div _
    · have hs1 : p.stride = 1 :=
        Nat.eq_of_mul_eq_mul_left (Nat.pos_of_ne_zero hz) (by omega)
      rw [hs1, Nat.div_one]
  refine ⟨_, pg, rfl, hpgrun, ?_, ?_⟩
  · rw [hdiv1, hdiv2, hndeq]
    exact rect_range_range _ _ _
  · intro j k hj hk
    rw [hdiv1] at hj
    rw [hdiv2] at hk
    rw [hndeq, cellD_range_range hj hk]

/-- Witness for the amended C6 at the concrete stride-1 layer `convFixB`. -/
theorem conv_backward_next_delta_full_convolution_witness :
    ∃ p' pg, convFixB'.conv_params = some p' ∧
      Layer.add_padding_matrix (cvPB.kernel - 1)
        ((List.range 2).map (fun i => (List.range 2).map (fun j =>
          cellD [[1, 0], [0, 0]] i j *
            convFixB.activation.derivative (cellD cvPB.outputs i j)))) = some pg ∧
      RectGrid [[0, -1, 0], [-1, 0, 0], [0, 0, 0]]
        ((2 + 2 * (cvPB.kernel - 1) - cvPB.kernel) / cvPB.stride + 1)
        ((2 + 2 * (cvPB.kernel - 1) - cvPB.kernel) / cvPB.stride + 1) ∧
      ∀ j k, j < (2 + 2 * (cvPB.kernel - 1) - cvPB.kernel) / cvPB.stride + 1 →
          k < (2 + 2 * (cvPB.kernel - 1) - cvPB.kernel) / cvPB.stride + 1 →
        cellD [[0, -1, 0], [-1, 0, 0], [0, 0, 0]] j k =
          ((List.range cvPB.kernel).map (fun r => ((List.range cvPB.kernel).map (fun c =>
            cellD p'.weights r c *
              cellD pg (j * cvPB.stride + r) (k * cvPB.stride + c))).sum)).sum :=
  conv_backward_next_delta_full_convolution convFixB cvPB [[1, 0], [0, 0]] 1 2 2
    rfl (by decide) (by decide) (by decide) (by decide) (by decide) (by decide)
    convFixB' [[0, -1, 0], [-1, 0, 0], [0, 0, 0]] (by with_unfolding_all rfl)
